import Mathlib

/-!
Shallow embedding of the `sutrie` succinct-trie library (`sutrie.go`).

Modeling conventions:
* Go strings and `[]byte` are byte sequences, modeled as `List Nat` (entries `< 256`).
* Go machine integers (`int`, `int32`, `uint8`, `uint32`) are modeled as `Nat`/`Int`;
  `uint8` truncation in `bitset.selects` is modeled by an explicit `% 256`.
  (Go's `int32` rank counters would overflow only for bit vectors with at least
  `2^31` set bits, far outside any state considered here.)
* Runtime panics (index out of range, nil dereference, explicit `panic`) are
  modeled by `Option`: a function that can panic returns `none` in exactly the
  states where the Go original aborts.
* `math/bits.OnesCount64` is external to the repository; it is modeled by the
  recursive population count `popc` (its mathematical specification).
* Loops are modeled by fuel-indexed structural recursion so that every
  definition evaluates inside the kernel; each loop is run with enough fuel
  for the Go iteration count, and fuel exhaustion is `none`/identity only in
  states the corresponding Go loop never reaches.
-/

/-- Population count of a natural number, structured as fuel-indexed recursion
on successive halvings (`popcF fuel n`); fuel `n` always suffices. -/
def popcF : Nat → Nat → Nat
  | 0, _ => 0
  | f + 1, n => if n = 0 then 0 else popcF f (n / 2) + n % 2

/-- Population count: model of Go's `math/bits.OnesCount64` (for words `< 2^64`). -/
def popc (n : Nat) : Nat := popcF n n

/-- Fuel irrelevance for `popcF`: any fuel at least `n` computes the same value. -/
theorem popcF_congr : ∀ {f₁ f₂ n : Nat}, n ≤ f₁ → n ≤ f₂ → popcF f₁ n = popcF f₂ n := by
  intro f₁
  induction f₁ with
  | zero =>
    intro f₂ n h1 _
    interval_cases n
    cases f₂ <;> simp [popcF]
  | succ f ih =>
    intro f₂ n h1 h2
    by_cases hn : n = 0
    · subst hn; cases f₂ <;> simp [popcF]
    · have hn1 : 1 ≤ n := Nat.one_le_iff_ne_zero.mpr hn
      obtain ⟨f₂', rfl⟩ : ∃ k, f₂ = k + 1 := by
        cases f₂ with
        | zero => omega
        | succ k => exact ⟨k, rfl⟩
      simp only [popcF, if_neg hn]
      have hd : n / 2 < n := Nat.div_lt_self hn1 (by norm_num)
      have := @ih f₂' (n / 2) (by omega) (by omega)
      omega

/-- Recursion equation for `popc`. -/
theorem popc_eq (n : Nat) : popc n = if n = 0 then 0 else popc (n / 2) + n % 2 := by
  by_cases hn : n = 0
  · subst hn; simp [popc, popcF]
  · obtain ⟨m, rfl⟩ : ∃ k, n = k + 1 := by
      cases n with
      | zero => omega
      | succ k => exact ⟨k, rfl⟩
    simp only [popc, popcF, if_neg hn]
    have h1 : (m + 1) / 2 ≤ m := by omega
    have := @popcF_congr m ((m + 1) / 2) ((m + 1) / 2) h1 (Nat.le_refl _)
    omega

/-- Byte population-count table from the source (`pop8tab`), transcribed as the
list of its 256 byte values. -/
def pop8tab : List Nat :=
[
  0, 1, 1, 2, 1, 2, 2, 3, 1, 2, 2, 3, 2, 3, 3, 4, 1, 2, 2, 3, 2, 3, 3, 4, 2, 3, 3, 4, 3, 4, 4, 5,
  1, 2, 2, 3, 2, 3, 3, 4, 2, 3, 3, 4, 3, 4, 4, 5, 2, 3, 3, 4, 3, 4, 4, 5, 3, 4, 4, 5, 4, 5, 5, 6,
  1, 2, 2, 3, 2, 3, 3, 4, 2, 3, 3, 4, 3, 4, 4, 5, 2, 3, 3, 4, 3, 4, 4, 5, 3, 4, 4, 5, 4, 5, 5, 6,
  2, 3, 3, 4, 3, 4, 4, 5, 3, 4, 4, 5, 4, 5, 5, 6, 3, 4, 4, 5, 4, 5, 5, 6, 4, 5, 5, 6, 5, 6, 6, 7,
  1, 2, 2, 3, 2, 3, 3, 4, 2, 3, 3, 4, 3, 4, 4, 5, 2, 3, 3, 4, 3, 4, 4, 5, 3, 4, 4, 5, 4, 5, 5, 6,
  2, 3, 3, 4, 3, 4, 4, 5, 3, 4, 4, 5, 4, 5, 5, 6, 3, 4, 4, 5, 4, 5, 5, 6, 4, 5, 5, 6, 5, 6, 6, 7,
  2, 3, 3, 4, 3, 4, 4, 5, 3, 4, 4, 5, 4, 5, 5, 6, 3, 4, 4, 5, 4, 5, 5, 6, 4, 5, 5, 6, 5, 6, 6, 7,
  3, 4, 4, 5, 4, 5, 5, 6, 4, 5, 5, 6, 5, 6, 6, 7, 4, 5, 5, 6, 5, 6, 6, 7, 5, 6, 6, 7, 6, 7, 7, 8]

/-- Per-byte nth-set-bit tables from the source (`precomp`), transcribed as
eight lists of 256 byte values (`\a` in the Go literal is byte 7). -/
def precomp : List (List Nat) := [
[
  0, 0, 1, 0, 2, 0, 1, 0, 3, 0, 1, 0, 2, 0, 1, 0, 4, 0, 1, 0, 2, 0, 1, 0, 3, 0, 1, 0, 2, 0, 1, 0,
  5, 0, 1, 0, 2, 0, 1, 0, 3, 0, 1, 0, 2, 0, 1, 0, 4, 0, 1, 0, 2, 0, 1, 0, 3, 0, 1, 0, 2, 0, 1, 0,
  6, 0, 1, 0, 2, 0, 1, 0, 3, 0, 1, 0, 2, 0, 1, 0, 4, 0, 1, 0, 2, 0, 1, 0, 3, 0, 1, 0, 2, 0, 1, 0,
  5, 0, 1, 0, 2, 0, 1, 0, 3, 0, 1, 0, 2, 0, 1, 0, 4, 0, 1, 0, 2, 0, 1, 0, 3, 0, 1, 0, 2, 0, 1, 0,
  7, 0, 1, 0, 2, 0, 1, 0, 3, 0, 1, 0, 2, 0, 1, 0, 4, 0, 1, 0, 2, 0, 1, 0, 3, 0, 1, 0, 2, 0, 1, 0,
  5, 0, 1, 0, 2, 0, 1, 0, 3, 0, 1, 0, 2, 0, 1, 0, 4, 0, 1, 0, 2, 0, 1, 0, 3, 0, 1, 0, 2, 0, 1, 0,
  6, 0, 1, 0, 2, 0, 1, 0, 3, 0, 1, 0, 2, 0, 1, 0, 4, 0, 1, 0, 2, 0, 1, 0, 3, 0, 1, 0, 2, 0, 1, 0,
  5, 0, 1, 0, 2, 0, 1, 0, 3, 0, 1, 0, 2, 0, 1, 0, 4, 0, 1, 0, 2, 0, 1, 0, 3, 0, 1, 0, 2, 0, 1, 0],
[
  0, 0, 0, 1, 0, 2, 2, 1, 0, 3, 3, 1, 3, 2, 2, 1, 0, 4, 4, 1, 4, 2, 2, 1, 4, 3, 3, 1, 3, 2, 2, 1,
  0, 5, 5, 1, 5, 2, 2, 1, 5, 3, 3, 1, 3, 2, 2, 1, 5, 4, 4, 1, 4, 2, 2, 1, 4, 3, 3, 1, 3, 2, 2, 1,
  0, 6, 6, 1, 6, 2, 2, 1, 6, 3, 3, 1, 3, 2, 2, 1, 6, 4, 4, 1, 4, 2, 2, 1, 4, 3, 3, 1, 3, 2, 2, 1,
  6, 5, 5, 1, 5, 2, 2, 1, 5, 3, 3, 1, 3, 2, 2, 1, 5, 4, 4, 1, 4, 2, 2, 1, 4, 3, 3, 1, 3, 2, 2, 1,
  0, 7, 7, 1, 7, 2, 2, 1, 7, 3, 3, 1, 3, 2, 2, 1, 7, 4, 4, 1, 4, 2, 2, 1, 4, 3, 3, 1, 3, 2, 2, 1,
  7, 5, 5, 1, 5, 2, 2, 1, 5, 3, 3, 1, 3, 2, 2, 1, 5, 4, 4, 1, 4, 2, 2, 1, 4, 3, 3, 1, 3, 2, 2, 1,
  7, 6, 6, 1, 6, 2, 2, 1, 6, 3, 3, 1, 3, 2, 2, 1, 6, 4, 4, 1, 4, 2, 2, 1, 4, 3, 3, 1, 3, 2, 2, 1,
  6, 5, 5, 1, 5, 2, 2, 1, 5, 3, 3, 1, 3, 2, 2, 1, 5, 4, 4, 1, 4, 2, 2, 1, 4, 3, 3, 1, 3, 2, 2, 1],
[
  0, 0, 0, 0, 0, 0, 0, 2, 0, 0, 0, 3, 0, 3, 3, 2, 0, 0, 0, 4, 0, 4, 4, 2, 0, 4, 4, 3, 4, 3, 3, 2,
  0, 0, 0, 5, 0, 5, 5, 2, 0, 5, 5, 3, 5, 3, 3, 2, 0, 5, 5, 4, 5, 4, 4, 2, 5, 4, 4, 3, 4, 3, 3, 2,
  0, 0, 0, 6, 0, 6, 6, 2, 0, 6, 6, 3, 6, 3, 3, 2, 0, 6, 6, 4, 6, 4, 4, 2, 6, 4, 4, 3, 4, 3, 3, 2,
  0, 6, 6, 5, 6, 5, 5, 2, 6, 5, 5, 3, 5, 3, 3, 2, 6, 5, 5, 4, 5, 4, 4, 2, 5, 4, 4, 3, 4, 3, 3, 2,
  0, 0, 0, 7, 0, 7, 7, 2, 0, 7, 7, 3, 7, 3, 3, 2, 0, 7, 7, 4, 7, 4, 4, 2, 7, 4, 4, 3, 4, 3, 3, 2,
  0, 7, 7, 5, 7, 5, 5, 2, 7, 5, 5, 3, 5, 3, 3, 2, 7, 5, 5, 4, 5, 4, 4, 2, 5, 4, 4, 3, 4, 3, 3, 2,
  0, 7, 7, 6, 7, 6, 6, 2, 7, 6, 6, 3, 6, 3, 3, 2, 7, 6, 6, 4, 6, 4, 4, 2, 6, 4, 4, 3, 4, 3, 3, 2,
  7, 6, 6, 5, 6, 5, 5, 2, 6, 5, 5, 3, 5, 3, 3, 2, 6, 5, 5, 4, 5, 4, 4, 2, 5, 4, 4, 3, 4, 3, 3, 2],
[
  0, 0, 0, 0, 0, 0, 0, 0, 0, 0, 0, 0, 0, 0, 0, 3, 0, 0, 0, 0, 0, 0, 0, 4, 0, 0, 0, 4, 0, 4, 4, 3,
  0, 0, 0, 0, 0, 0, 0, 5, 0, 0, 0, 5, 0, 5, 5, 3, 0, 0, 0, 5, 0, 5, 5, 4, 0, 5, 5, 4, 5, 4, 4, 3,
  0, 0, 0, 0, 0, 0, 0, 6, 0, 0, 0, 6, 0, 6, 6, 3, 0, 0, 0, 6, 0, 6, 6, 4, 0, 6, 6, 4, 6, 4, 4, 3,
  0, 0, 0, 6, 0, 6, 6, 5, 0, 6, 6, 5, 6, 5, 5, 3, 0, 6, 6, 5, 6, 5, 5, 4, 6, 5, 5, 4, 5, 4, 4, 3,
  0, 0, 0, 0, 0, 0, 0, 7, 0, 0, 0, 7, 0, 7, 7, 3, 0, 0, 0, 7, 0, 7, 7, 4, 0, 7, 7, 4, 7, 4, 4, 3,
  0, 0, 0, 7, 0, 7, 7, 5, 0, 7, 7, 5, 7, 5, 5, 3, 0, 7, 7, 5, 7, 5, 5, 4, 7, 5, 5, 4, 5, 4, 4, 3,
  0, 0, 0, 7, 0, 7, 7, 6, 0, 7, 7, 6, 7, 6, 6, 3, 0, 7, 7, 6, 7, 6, 6, 4, 7, 6, 6, 4, 6, 4, 4, 3,
  0, 7, 7, 6, 7, 6, 6, 5, 7, 6, 6, 5, 6, 5, 5, 3, 7, 6, 6, 5, 6, 5, 5, 4, 6, 5, 5, 4, 5, 4, 4, 3],
[
  0, 0, 0, 0, 0, 0, 0, 0, 0, 0, 0, 0, 0, 0, 0, 0, 0, 0, 0, 0, 0, 0, 0, 0, 0, 0, 0, 0, 0, 0, 0, 4,
  0, 0, 0, 0, 0, 0, 0, 0, 0, 0, 0, 0, 0, 0, 0, 5, 0, 0, 0, 0, 0, 0, 0, 5, 0, 0, 0, 5, 0, 5, 5, 4,
  0, 0, 0, 0, 0, 0, 0, 0, 0, 0, 0, 0, 0, 0, 0, 6, 0, 0, 0, 0, 0, 0, 0, 6, 0, 0, 0, 6, 0, 6, 6, 4,
  0, 0, 0, 0, 0, 0, 0, 6, 0, 0, 0, 6, 0, 6, 6, 5, 0, 0, 0, 6, 0, 6, 6, 5, 0, 6, 6, 5, 6, 5, 5, 4,
  0, 0, 0, 0, 0, 0, 0, 0, 0, 0, 0, 0, 0, 0, 0, 7, 0, 0, 0, 0, 0, 0, 0, 7, 0, 0, 0, 7, 0, 7, 7, 4,
  0, 0, 0, 0, 0, 0, 0, 7, 0, 0, 0, 7, 0, 7, 7, 5, 0, 0, 0, 7, 0, 7, 7, 5, 0, 7, 7, 5, 7, 5, 5, 4,
  0, 0, 0, 0, 0, 0, 0, 7, 0, 0, 0, 7, 0, 7, 7, 6, 0, 0, 0, 7, 0, 7, 7, 6, 0, 7, 7, 6, 7, 6, 6, 4,
  0, 0, 0, 7, 0, 7, 7, 6, 0, 7, 7, 6, 7, 6, 6, 5, 0, 7, 7, 6, 7, 6, 6, 5, 7, 6, 6, 5, 6, 5, 5, 4],
[
  0, 0, 0, 0, 0, 0, 0, 0, 0, 0, 0, 0, 0, 0, 0, 0, 0, 0, 0, 0, 0, 0, 0, 0, 0, 0, 0, 0, 0, 0, 0, 0,
  0, 0, 0, 0, 0, 0, 0, 0, 0, 0, 0, 0, 0, 0, 0, 0, 0, 0, 0, 0, 0, 0, 0, 0, 0, 0, 0, 0, 0, 0, 0, 5,
  0, 0, 0, 0, 0, 0, 0, 0, 0, 0, 0, 0, 0, 0, 0, 0, 0, 0, 0, 0, 0, 0, 0, 0, 0, 0, 0, 0, 0, 0, 0, 6,
  0, 0, 0, 0, 0, 0, 0, 0, 0, 0, 0, 0, 0, 0, 0, 6, 0, 0, 0, 0, 0, 0, 0, 6, 0, 0, 0, 6, 0, 6, 6, 5,
  0, 0, 0, 0, 0, 0, 0, 0, 0, 0, 0, 0, 0, 0, 0, 0, 0, 0, 0, 0, 0, 0, 0, 0, 0, 0, 0, 0, 0, 0, 0, 7,
  0, 0, 0, 0, 0, 0, 0, 0, 0, 0, 0, 0, 0, 0, 0, 7, 0, 0, 0, 0, 0, 0, 0, 7, 0, 0, 0, 7, 0, 7, 7, 5,
  0, 0, 0, 0, 0, 0, 0, 0, 0, 0, 0, 0, 0, 0, 0, 7, 0, 0, 0, 0, 0, 0, 0, 7, 0, 0, 0, 7, 0, 7, 7, 6,
  0, 0, 0, 0, 0, 0, 0, 7, 0, 0, 0, 7, 0, 7, 7, 6, 0, 0, 0, 7, 0, 7, 7, 6, 0, 7, 7, 6, 7, 6, 6, 5],
[
  0, 0, 0, 0, 0, 0, 0, 0, 0, 0, 0, 0, 0, 0, 0, 0, 0, 0, 0, 0, 0, 0, 0, 0, 0, 0, 0, 0, 0, 0, 0, 0,
  0, 0, 0, 0, 0, 0, 0, 0, 0, 0, 0, 0, 0, 0, 0, 0, 0, 0, 0, 0, 0, 0, 0, 0, 0, 0, 0, 0, 0, 0, 0, 0,
  0, 0, 0, 0, 0, 0, 0, 0, 0, 0, 0, 0, 0, 0, 0, 0, 0, 0, 0, 0, 0, 0, 0, 0, 0, 0, 0, 0, 0, 0, 0, 0,
  0, 0, 0, 0, 0, 0, 0, 0, 0, 0, 0, 0, 0, 0, 0, 0, 0, 0, 0, 0, 0, 0, 0, 0, 0, 0, 0, 0, 0, 0, 0, 6,
  0, 0, 0, 0, 0, 0, 0, 0, 0, 0, 0, 0, 0, 0, 0, 0, 0, 0, 0, 0, 0, 0, 0, 0, 0, 0, 0, 0, 0, 0, 0, 0,
  0, 0, 0, 0, 0, 0, 0, 0, 0, 0, 0, 0, 0, 0, 0, 0, 0, 0, 0, 0, 0, 0, 0, 0, 0, 0, 0, 0, 0, 0, 0, 7,
  0, 0, 0, 0, 0, 0, 0, 0, 0, 0, 0, 0, 0, 0, 0, 0, 0, 0, 0, 0, 0, 0, 0, 0, 0, 0, 0, 0, 0, 0, 0, 7,
  0, 0, 0, 0, 0, 0, 0, 0, 0, 0, 0, 0, 0, 0, 0, 7, 0, 0, 0, 0, 0, 0, 0, 7, 0, 0, 0, 7, 0, 7, 7, 6],
[
  0, 0, 0, 0, 0, 0, 0, 0, 0, 0, 0, 0, 0, 0, 0, 0, 0, 0, 0, 0, 0, 0, 0, 0, 0, 0, 0, 0, 0, 0, 0, 0,
  0, 0, 0, 0, 0, 0, 0, 0, 0, 0, 0, 0, 0, 0, 0, 0, 0, 0, 0, 0, 0, 0, 0, 0, 0, 0, 0, 0, 0, 0, 0, 0,
  0, 0, 0, 0, 0, 0, 0, 0, 0, 0, 0, 0, 0, 0, 0, 0, 0, 0, 0, 0, 0, 0, 0, 0, 0, 0, 0, 0, 0, 0, 0, 0,
  0, 0, 0, 0, 0, 0, 0, 0, 0, 0, 0, 0, 0, 0, 0, 0, 0, 0, 0, 0, 0, 0, 0, 0, 0, 0, 0, 0, 0, 0, 0, 0,
  0, 0, 0, 0, 0, 0, 0, 0, 0, 0, 0, 0, 0, 0, 0, 0, 0, 0, 0, 0, 0, 0, 0, 0, 0, 0, 0, 0, 0, 0, 0, 0,
  0, 0, 0, 0, 0, 0, 0, 0, 0, 0, 0, 0, 0, 0, 0, 0, 0, 0, 0, 0, 0, 0, 0, 0, 0, 0, 0, 0, 0, 0, 0, 0,
  0, 0, 0, 0, 0, 0, 0, 0, 0, 0, 0, 0, 0, 0, 0, 0, 0, 0, 0, 0, 0, 0, 0, 0, 0, 0, 0, 0, 0, 0, 0, 0,
  0, 0, 0, 0, 0, 0, 0, 0, 0, 0, 0, 0, 0, 0, 0, 0, 0, 0, 0, 0, 0, 0, 0, 0, 0, 0, 0, 0, 0, 0, 0, 7]]

/-- Model of `nthSet`: position of the `(n+1)`-th set bit of the 64-bit word `v`,
located by byte-wise popcount halving; `none` models the out-of-range `precomp[n]`
access (Go panic) that occurs when `n` survives to the final stage with `n ≥ 8`. -/
def nthSet (v : Nat) (n : Nat) : Option Nat :=
  let p1 := pop8tab.getD ((v >>> 24) &&& 255) 0 + pop8tab.getD ((v >>> 16) &&& 255) 0 +
            pop8tab.getD ((v >>> 8) &&& 255) 0 + pop8tab.getD (v &&& 255) 0
  let s1 := if p1 ≤ n then (v >>> 32, 32, n - p1) else (v, 0, n)
  let p2 := pop8tab.getD ((s1.1 >>> 8) &&& 255) 0 + pop8tab.getD (s1.1 &&& 255) 0
  let s2 := if p2 ≤ s1.2.2 then (s1.1 >>> 16, s1.2.1 + 16, s1.2.2 - p2)
            else (s1.1, s1.2.1, s1.2.2)
  let p3 := pop8tab.getD (s2.1 &&& 255) 0
  let s3 := if p3 ≤ s2.2.2 then (s2.1 >>> 8, s2.2.1 + 8, s2.2.2 - p3)
            else (s2.1, s2.2.1, s2.2.2)
  match precomp.get? s3.2.2 with
  | none => none
  | some row => some (row.getD (s3.1 &&& 255) 0 + s3.2.1)

/-- Model of the Go `bitset` struct: `bits` is the backing `[]uint64` word array
(each entry `< 2^64` in well-formed states), `ranks`/`sl` the rank prefix sums
and select hints filled in by `init` (`[]` models the nil slices). -/
structure bitset where
  bits : List Nat
  ranks : List Nat
  sl : List Nat
  deriving DecidableEq, Repr, Inhabited

/-- Grow a word list with zero words until index `wi` is addressable,
modeling the append loop in `bitset.setBit`. -/
def growWords (l : List Nat) (wi : Nat) : List Nat :=
  l ++ List.replicate (wi + 1 - l.length) 0

/-- Model of `bitset.setBit`: grow the word array, then set or clear bit
`pos % 64` of word `pos / 64`; invalidates `ranks` (sets it to nil). -/
def bitset.setBit (b : bitset) (pos : Nat) (value : Bool) : bitset :=
  let wi := pos / 64
  let bits := growWords b.bits wi
  let w := bits.getD wi 0
  let w' := if value then w ||| (1 <<< (pos % 64))
            else w &&& ((1 <<< (pos % 64)) ^^^ (2 ^ 64 - 1))
  { bits := bits.set wi w', ranks := [], sl := b.sl }

/-- Model of `bitset.getBit`: false past the end of the backing words. -/
def bitset.getBit (b : bitset) (pos : Nat) : Bool :=
  if b.bits.length ≤ pos / 64 then false
  else (b.bits.getD (pos / 64) 0).testBit (pos % 64)

/-- Drop trailing all-zero words, modeling the trimming loop at the start of
`bitset.init`. -/
def trimWords (l : List Nat) : List Nat :=
  (l.reverse.dropWhile (· == 0)).reverse

/-- The main loop of `bitset.init` over the word list: `i` is the word index,
`rk` the running rank, `t` the next select-hint slot; returns the extended
`ranks`, the updated `sl` and the final `t`, or `none` when the Go loop would
write `sl[t]` out of range (index-out-of-range panic). -/
def initLoop : List Nat → Nat → Nat → Nat → List Nat → List Nat →
    Option (List Nat × List Nat × Nat)
  | [], _, _, t, ranks, sl => some (ranks, sl, t)
  | w :: rest, i, rk, t, ranks, sl =>
    let rk' := rk + popc w
    if t ≤ rk' / 64 then
      if t < sl.length then initLoop rest (i + 1) rk' (t + 1) (ranks ++ [rk']) (sl.set t i)
      else none
    else initLoop rest (i + 1) rk' t (ranks ++ [rk']) sl

/-- Model of `bitset.init`: trim trailing zero words, fill `ranks` and the
select hints `sl`; `none` models the out-of-range `sl[t]` write (Go panic). -/
def bitset.init (b : bitset) : Option bitset :=
  let bits := trimWords b.bits
  let slLen := bits.length / 2 + 1 + bits.length % 2
  match initLoop bits 0 0 1 [0] (List.replicate slLen 0) with
  | none => none
  | some (ranks, sl, t) =>
    if t < sl.length then some ⟨bits, ranks, sl.set t (bits.length - 1)⟩ else none

/-- The linear hint scan inside `bitset.selects`
(`for ; l < r && b.ranks[l+1] < nth; l++`); fuel `r - l` always suffices, and a
missing `ranks[l+1]` entry models the Go index panic. -/
def selScan (ranks : List Nat) (nth : Nat) : Nat → Nat → Nat → Option Nat
  | 0, l, r => if l < r then none else some l
  | f + 1, l, r =>
    if l < r then
      match ranks.get? (l + 1) with
      | none => none
      | some v => if v < nth then selScan ranks nth f (l + 1) r else some l
    else some l

/-- Model of `bitset.selects`: `-1` when fewer than `nth` bits are set, otherwise
the hint-bounded scan followed by `nthSet` inside the located word. `none`
models the panics of the Go original: empty `ranks` (never initialized),
negative `nth` (out-of-range `sl` index), or an out-of-range table access. -/
def bitset.selects (b : bitset) (nth : Int) : Option Int :=
  match b.ranks.get? (b.ranks.length - 1) with
  | none => none
  | some last =>
    if (last : Int) < nth then some (-1)
    else if nth < 0 then none
    else
      let nthN := nth.toNat
      match b.sl.get? (nthN / 64), b.sl.get? (nthN / 64 + 1) with
      | some l0, some r0 =>
        match selScan b.ranks nthN (r0 - l0) l0 r0 with
        | none => none
        | some l =>
          match b.bits.get? l, b.ranks.get? l with
          | some w, some rk =>
            (nthSet w (((nth - (rk : Int) - 1) % 256).toNat)).map
              (fun s => (l : Int) * 64 + (s : Int))
          | _, _ => none
      | _, _ => none

/-- Model of the `SuccinctTrie` struct. -/
structure SuccinctTrie where
  bitmap : bitset
  leaves : bitset
  nodes : List Nat
  size : Nat
  deriving DecidableEq, Repr, Inhabited

/-- Model of the `Node` cursor; `trie = none` models a nil `*SuccinctTrie`
pointer (as in the zero `Node{}` returned by a failed `Next`). -/
structure Node where
  trie : Option SuccinctTrie
  firstChild : Int
  afterLastChild : Int
  leaf : Bool
  deriving DecidableEq, Repr, Inhabited

/-- Lexicographic byte-wise order on keys, the order used by Go's
`sort.Strings`. -/
def lexLe : List Nat → List Nat → Bool
  | [], _ => true
  | _ :: _, [] => false
  | a :: as, b :: bs => if a < b then true else if b < a then false else lexLe as bs

/-- Insert a key into a `lexLe`-sorted list. -/
def insertSorted (x : List Nat) : List (List Nat) → List (List Nat)
  | [] => [x]
  | y :: ys => if lexLe x y then x :: y :: ys else y :: insertSorted x ys

/-- Model of `sort.Strings`: lexicographic sorting of the dictionary
(insertion sort; since `lexLe` is a total antisymmetric order, the sorted
permutation is unique, so the algorithm choice is immaterial). -/
def sortStrings : List (List Nat) → List (List Nat)
  | [] => []
  | x :: xs => insertSorted x (sortStrings xs)

/-- Model of the BFS frame `bfsNode{l, r, depth}`. -/
structure bfsNode where
  l : Nat
  r : Nat
  depth : Nat
  deriving DecidableEq, Repr, Inhabited

/-- Model of the fixed-capacity ring-buffer `queue[bfsNode]`. -/
structure queue where
  data : List bfsNode
  l : Nat
  sz : Nat
  deriving DecidableEq, Repr, Inhabited

/-- Model of `newQueue`: `size` zero-valued slots. -/
def newQueue (size : Nat) : queue := ⟨List.replicate size default, 0, 0⟩

/-- Model of `queue.push`: writes at `(l+sz) mod cap` — exactly as in Go, with
no overflow check, so a push onto a full queue silently overwrites. -/
def queue.push (q : queue) (elm : bfsNode) : queue :=
  { q with data := q.data.set ((q.l + q.sz) % q.data.length) elm, sz := q.sz + 1 }

/-- Model of `queue.pop` for nonempty queues; in `BuildSuccinctTrie` every pop
is guarded by the `queue.size() > 0` loop condition, so the explicit
`panic("pop: no element")` branch of the Go original is unreachable. -/
def queue.pop (q : queue) : bfsNode × queue :=
  (q.data.getD q.l default, { q with l := (q.l + 1) % q.data.length, sz := q.sz - 1 })

/-- Byte `d` of dictionary entry `i`. In Go this is the unguarded `dict[i][d]`;
the build invariant (entries of a live range share their first `depth` bytes
and, past the `next` cursor, are longer than `depth`) keeps it in range. -/
def byteAt (dict : List (List Nat)) (i d : Nat) : Nat :=
  (dict.getD i []).getD d 0

/-- The cursor-advance loop of `BuildSuccinctTrie`
(`for next < cur.r && len(dict[next]) <= int(cur.depth)`); fuel `r - next`
always suffices. -/
def advN (dict : List (List Nat)) (depth r : Nat) : Nat → Nat → Nat
  | 0, next => next
  | f + 1, next =>
    if next < r ∧ (dict.getD next []).length ≤ depth then advN dict depth r f (next + 1)
    else next

/-- The inner galloping loop of `BuildSuccinctTrie`
(`for r+b < cur.r && dict[i][cur.depth] == dict[r+b][cur.depth]`); fuel `R`
always suffices for jump width `b ≥ 1`. -/
def gallopIn (dict : List (List Nat)) (depth R i b : Nat) : Nat → Nat → Nat
  | 0, r => r
  | f + 1, r =>
    if r + b < R ∧ byteAt dict i depth = byteAt dict (r + b) depth
    then gallopIn dict depth R i b f (r + b)
    else r

/-- The outer galloping loop (`for b := (cur.r - i) >> 1; b >= 1; b >>= 1`);
fuel `b + 1` always suffices since `b` halves each round. -/
def gallopOut (dict : List (List Nat)) (depth R i : Nat) : Nat → Nat → Nat → Nat
  | 0, _, r => r
  | f + 1, b, r =>
    if 1 ≤ b then gallopOut dict depth R i f (b / 2) (gallopIn dict depth R i b R r)
    else r

/-- Mutable state of the `BuildSuccinctTrie` main loop. -/
structure BuildState where
  bitmap : bitset
  leaves : bitset
  size : Nat
  nodes : List Nat
  zeroIdx : Nat
  q : queue
  deriving DecidableEq, Repr, Inhabited

/-- The per-node group loop of `BuildSuccinctTrie` (`for i := next; i < cur.r;`):
finds each maximal run of entries sharing byte `depth`, appends its label,
marks a leaf when the run starts with an exact-length entry, and enqueues the
child range; fuel `R - i` always suffices. -/
def groupLoop (dict : List (List Nat)) (depth R : Nat) : Nat → Nat → BuildState → BuildState
  | 0, _, s => s
  | f + 1, i, s =>
    if i < R then
      let b0 := (R - i) / 2
      let r := gallopOut dict depth R i (b0 + 1) b0 i + 1
      let nodes := s.nodes ++ [byteAt dict i depth]
      let ls :=
        if (dict.getD i []).length = depth + 1
        then (s.leaves.setBit (nodes.length - 1) true, s.size + 1)
        else (s.leaves, s.size)
      groupLoop dict depth R f r
        { bitmap := s.bitmap, leaves := ls.1, size := ls.2, nodes := nodes,
          zeroIdx := s.zeroIdx + 1, q := s.q.push ⟨i, r, depth + 1⟩ }
    else s

/-- One iteration of the main BFS loop: pop a frame, emit its `1` bit, skip
entries already exhausted at this depth, then run the group loop. -/
def buildStep (dict : List (List Nat)) (s : BuildState) : BuildState :=
  let pr := s.q.pop
  let cur := pr.1
  let next := advN dict cur.depth cur.r (cur.r - cur.l) cur.l
  groupLoop dict cur.depth cur.r (cur.r - next) next
    { bitmap := s.bitmap.setBit s.zeroIdx true, leaves := s.leaves, size := s.size,
      nodes := s.nodes, zeroIdx := s.zeroIdx + 1, q := pr.2 }

/-- The main BFS loop (`for queue.size() > 0`), fuel-indexed; `none` on fuel
exhaustion, which `buildFuel` precludes for every real execution. -/
def buildLoop (dict : List (List Nat)) : Nat → BuildState → Option BuildState
  | 0, s => if s.q.sz = 0 then some s else none
  | f + 1, s => if s.q.sz = 0 then some s else buildLoop dict f (buildStep dict s)

/-- Fuel bound for `buildLoop`: the trie has at most `1 + Σ (len + 1)` nodes. -/
def buildFuel (dict : List (List Nat)) : Nat :=
  1 + (dict.map (fun k => k.length + 1)).sum

/-- Model of `BuildSuccinctTrie`: sort, run the BFS loop from the initial
frame `(0, len(dict), 0)`, set the final sentinel bit and finalize the bitmap.
`none` models a panic (the out-of-range select-hint write in `bitset.init`,
reachable e.g. when the trie has exactly 63 mod 64 nodes). -/
def BuildSuccinctTrie (dict0 : List (List Nat)) : Option SuccinctTrie :=
  let dict := sortStrings dict0
  let q0 := (newQueue (max 1 dict.length)).push ⟨0, dict.length, 0⟩
  let s0 : BuildState := ⟨⟨[], [], []⟩, ⟨[], [], []⟩, 0, [0], 1, q0⟩
  match buildLoop dict (buildFuel dict) s0 with
  | none => none
  | some s =>
    match (s.bitmap.setBit s.zeroIdx true).init with
    | none => none
    | some bm => some ⟨bm, s.leaves, s.nodes, s.size⟩

/-- Model of `SuccinctTrie.Root`. -/
def SuccinctTrie.Root (t : SuccinctTrie) : Option Node :=
  match t.bitmap.selects 1 with
  | none => none
  | some fc =>
    if fc < 0 then some ⟨some t, 0, 0, false⟩
    else
      match t.bitmap.selects 2 with
      | none => none
      | some s2 => some ⟨some t, fc, s2 - 1, false⟩

/-- Model of `Node.Exists`. -/
def Node.Exists (n : Node) : Bool := n.trie.isSome

/-- Model of `Node.Size` (number of children). -/
def Node.Size (n : Node) : Int := n.afterLastChild - n.firstChild

/-- Model of `Node.Leaf`. -/
def Node.Leaf (n : Node) : Bool := n.leaf

/-- Model of `Node.Children` (`n.trie.nodes[n.firstChild:n.afterLastChild]`);
`none` models the nil dereference or an out-of-range slice. -/
def Node.Children (n : Node) : Option (List Nat) :=
  match n.trie with
  | none => none
  | some t =>
    if 0 ≤ n.firstChild ∧ n.firstChild ≤ n.afterLastChild ∧
        n.afterLastChild ≤ (t.nodes.length : Int)
    then some ((t.nodes.take n.afterLastChild.toNat).drop n.firstChild.toNat)
    else none

/-- Binary-search phase of `SuccinctTrie.indexByte` (`for r-l >= 15`): either
the absolute index of `bv` (left) or the final `(l, r)` (right); `none` models
an out-of-range `t.nodes[k]` access. Fuel `(r-l).toNat + 1` always suffices
since the span shrinks every round. -/
def ibBin (nodes : List Nat) (bv : Nat) : Nat → Int → Int → Option (Int ⊕ (Int × Int))
  | 0, l, r => if 15 ≤ r - l then none else some (Sum.inr (l, r))
  | f + 1, l, r =>
    if 15 ≤ r - l then
      let k := Int.fdiv (l + r) 2
      if k < 0 then none
      else
        match nodes.get? k.toNat with
        | none => none
        | some c =>
          if c = bv then some (Sum.inl k)
          else if bv < c then ibBin nodes bv f l (k - 1)
          else ibBin nodes bv f (k + 1) r
    else some (Sum.inr (l, r))

/-- Linear-scan phase of `SuccinctTrie.indexByte` (`for i := l; i <= r; i++`);
`-1` when the byte is absent; `none` models an out-of-range access. -/
def ibLin (nodes : List Nat) (bv : Nat) : Nat → Int → Int → Option Int
  | 0, i, r => if i ≤ r then none else some (-1)
  | f + 1, i, r =>
    if i ≤ r then
      if i < 0 then none
      else
        match nodes.get? i.toNat with
        | none => none
        | some c => if c = bv then some i else ibLin nodes bv f (i + 1) r
    else some (-1)

/-- Model of `SuccinctTrie.indexByte`. The receiver may be a nil pointer (as
in `Next` on a nonexistent cursor); Go dereferences it only at `t.nodes`
accesses inside the loops, so when both loops are skipped (`r0 - 1 < l` and
span `< 15`) the result is `-1` even for a nil receiver. -/
def indexByte (ot : Option SuccinctTrie) (l r0 : Int) (bv : Nat) : Option Int :=
  let r := r0 - 1
  if r - l < 15 ∧ r < l then some (-1)
  else
    match ot with
    | none => none
    | some t =>
      match ibBin t.nodes bv ((r - l).toNat + 1) l r with
      | none => none
      | some (Sum.inl k) => some k
      | some (Sum.inr p) => ibLin t.nodes bv ((p.2 - p.1).toNat + 1) p.1 p.2

/-- Model of the private `Node.next(node int32)`: cursor for the child whose
label sits at absolute index `node`, via the LOUDS select identities. -/
def Node.next (n : Node) (node : Int) : Option Node :=
  if n.afterLastChild ≤ node ∨ node < 0 then some ⟨none, 0, 0, false⟩
  else
    match n.trie with
    | none => none
    | some t =>
      match t.bitmap.selects (node + 1) with
      | none => none
      | some s1 =>
        if s1 - node < 0 then some ⟨some t, 0, 0, true⟩
        else
          match t.bitmap.selects (node + 2) with
          | none => none
          | some s2 => some ⟨some t, s1 - node, s2 - node - 1, t.leaves.getBit node.toNat⟩

/-- Model of `Node.Next`. -/
def Node.Next (n : Node) (bv : Nat) : Option Node :=
  match indexByte n.trie n.firstChild n.afterLastChild bv with
  | none => none
  | some k => n.next k

/-- Model of `Node.Search`: fold `Next` over the bytes while the cursor exists. -/
def Node.Search (n : Node) : List Nat → Option Node
  | [] => some n
  | c :: rest =>
    if n.Exists then
      match n.Next c with
      | none => none
      | some n' => n'.Search rest
    else some n

/-- Loop of `Node.SearchPrefix`: `i` is the current index, the accumulator is
`lastUnmatch`, updated to `i + 1` whenever the newly reached node is a leaf. -/
def SearchPrefixLoop (cur : Node) (i lastUnmatch : Nat) : List Nat → Option Nat
  | [] => some lastUnmatch
  | c :: rest =>
    match indexByte cur.trie cur.firstChild cur.afterLastChild c with
    | none => none
    | some k =>
      if k = -1 then some lastUnmatch
      else
        match cur.next k with
        | none => none
        | some cur' =>
          SearchPrefixLoop cur' (i + 1) (if cur'.leaf then i + 1 else lastUnmatch) rest

/-- Model of `Node.SearchPrefix`. -/
def Node.SearchPrefix (cur : Node) (key : List Nat) : Option Nat :=
  SearchPrefixLoop cur 0 0 key

/-- Model of `SuccinctTrie.Size`. -/
def SuccinctTrie.Size (t : SuccinctTrie) : Nat := t.size

/-- Model of the serialization record `wrapSuccinctTrie`; the gob byte codec is
external to the repository and faithfully round-trips this record, so `Marshal`
and `Unmarshal` are modeled at the record level. -/
structure wrapSuccinctTrie where
  BitmapBits : List Nat
  LeavesBits : List Nat
  Nodes : List Nat
  Size : Nat
  deriving DecidableEq, Repr, Inhabited

/-- Model of `SuccinctTrie.Marshal` (the encoded record). -/
def SuccinctTrie.Marshal (v : SuccinctTrie) : wrapSuccinctTrie :=
  ⟨v.bitmap.bits, v.leaves.bits, v.nodes, v.size⟩

/-- Model of `SuccinctTrie.Unmarshal`: install the decoded fields, clear the
accelerators, and re-run `bitmap.init` (which can panic, hence `Option`). -/
def SuccinctTrie.Unmarshal (w : wrapSuccinctTrie) : Option SuccinctTrie :=
  match (bitset.mk w.BitmapBits [] []).init with
  | none => none
  | some bm => some ⟨bm, ⟨w.LeavesBits, [], []⟩, w.Nodes, w.Size⟩

/-- The dictionary `["hat", "is", "it", "a"]` as byte lists (ASCII). -/
def dictHat : List (List Nat) := [[104, 97, 116], [105, 115], [105, 116], [97]]

/-- The nonexistent cursor: Go's zero `Node{}` value, returned by a failed
`Next`; its `Exists()` is false. -/
def nodeNil : Node := ⟨none, 0, 0, false⟩

/-- Claim C6 (counterexample): on the dictionary `["hat","is","it","a"]` the
first 17 bits of the topology, enumerated LSB first (bit position 0 first),
are NOT `1,1,1,1,0,1,0,0,1,0,1,1,0,0,0,1,0`; in fact bit 0 is never set (the
builder starts writing at bit position 1). -/
theorem sutrie_C6_cex :
    (BuildSuccinctTrie dictHat).map
        (fun t => (List.range 17).map (fun p => t.bitmap.getBit p)) ≠
      some [true, true, true, true, false, true, false, false, true, false, true,
            true, false, false, false, true, false] := by
  decide

/-- Claim C6 (amended): building from `["hat","is","it","a"]` yields labels
`[0, 'a', 'h', 'i', 'a', 's', 't', 't']`, and the first 17 bits of the
topology are `1,1,1,1,0,1,0,0,1,0,1,1,0,0,0,1,0` when enumerated MSB first,
from bit position 16 down to bit position 0 (the order printed by the `%08b`
format); LSB first they read `0,1,0,0,0,1,1,0,1,0,0,1,0,1,1,1,1`. -/
theorem sutrie_C6 :
    (BuildSuccinctTrie dictHat).map (fun t => t.nodes) =
        some [0, 97, 104, 105, 97, 115, 116, 116] ∧
      (BuildSuccinctTrie dictHat).map
          (fun t => (List.range 17).map (fun p => t.bitmap.getBit (16 - p))) =
        some [true, true, true, true, false, true, false, false, true, false, true,
              true, false, false, false, true, false] := by
  constructor <;> decide

/-- Claim C7: `Next` and `Search` on the nonexistent cursor are total and
absorbing: for every byte and every query string they return the nonexistent
cursor itself (wrapped in `some`: no panic occurs — in particular the nil
trie pointer is never dereferenced, because both scan loops of `indexByte`
are skipped on the empty child range). -/
theorem sutrie_C7 (b : Nat) (s : List Nat) :
    nodeNil.Next b = some nodeNil ∧ nodeNil.Search s = some nodeNil ∧
      nodeNil.Exists = false := by
  refine ⟨?_, ?_, rfl⟩
  · simp [Node.Next, indexByte, nodeNil, Node.next]
  · cases s with
    | nil => rfl
    | cons c rest => simp [Node.Search, Node.Exists, nodeNil]

/-- Characterization of `lexLe` on cons cells. -/
theorem lexLe_cons {x y : Nat} {xs ys : List Nat} :
    lexLe (x :: xs) (y :: ys) = true ↔ (x < y ∨ (x = y ∧ lexLe xs ys = true)) := by
  simp only [lexLe]
  split_ifs with h1 h2
  · simp [h1]
  · simp [h2]; omega
  · have : x = y := by omega
    simp [this]

/-- Totality of the lexicographic order. -/
theorem lexLe_total : ∀ a b : List Nat, lexLe a b = true ∨ lexLe b a = true := by
  intro a
  induction a with
  | nil => intro b; left; rfl
  | cons x xs ih =>
    intro b
    cases b with
    | nil => right; rfl
    | cons y ys =>
      rcases Nat.lt_trichotomy x y with h | h | h
      · left; exact lexLe_cons.mpr (Or.inl h)
      · rcases ih ys with h2 | h2
        · left; exact lexLe_cons.mpr (Or.inr ⟨h, h2⟩)
        · right; exact lexLe_cons.mpr (Or.inr ⟨h.symm, h2⟩)
      · right; exact lexLe_cons.mpr (Or.inl h)

/-- Transitivity of the lexicographic order. -/
theorem lexLe_trans : ∀ a b c : List Nat,
    lexLe a b = true → lexLe b c = true → lexLe a c = true := by
  intro a
  induction a with
  | nil => intro b c _ _; rfl
  | cons x xs ih =>
    intro b c hab hbc
    cases b with
    | nil => simp [lexLe] at hab
    | cons y ys =>
      cases c with
      | nil => simp [lexLe] at hbc
      | cons z zs =>
        rcases lexLe_cons.mp hab with h1 | ⟨h1, h1t⟩ <;>
          rcases lexLe_cons.mp hbc with h2 | ⟨h2, h2t⟩
        · exact lexLe_cons.mpr (Or.inl (by omega))
        · exact lexLe_cons.mpr (Or.inl (by omega))
        · exact lexLe_cons.mpr (Or.inl (by omega))
        · exact lexLe_cons.mpr (Or.inr ⟨by omega, ih _ _ h1t h2t⟩)

/-- Permutation property of `insertSorted`. -/
theorem insertSorted_perm (x : List Nat) :
    ∀ l : List (List Nat), (insertSorted x l).Perm (x :: l) := by
  intro l
  induction l with
  | nil => simp [insertSorted]
  | cons y ys ih =>
    by_cases h : lexLe x y = true
    · simp [insertSorted, h]
    · simp only [insertSorted, if_neg h]
      exact (List.Perm.cons y ih).trans (List.Perm.swap x y ys)

/-- Sortedness is preserved by `insertSorted`. -/
theorem insertSorted_pairwise (x : List Nat) :
    ∀ l : List (List Nat), l.Pairwise (fun a b => lexLe a b = true) →
      (insertSorted x l).Pairwise (fun a b => lexLe a b = true) := by
  intro l
  induction l with
  | nil => intro _; simp [insertSorted]
  | cons y ys ih =>
    intro hp
    rw [List.pairwise_cons] at hp
    by_cases h : lexLe x y = true
    · simp only [insertSorted, if_pos h]
      rw [List.pairwise_cons]
      refine ⟨?_, List.pairwise_cons.mpr hp⟩
      intro b hb
      rcases List.mem_cons.mp hb with rfl | hb
      · exact h
      · exact lexLe_trans _ _ _ h (hp.1 b hb)
    · simp only [insertSorted, if_neg h]
      rw [List.pairwise_cons]
      constructor
      · intro b hb
        have hmem := (insertSorted_perm x ys).mem_iff.mp hb
        rcases List.mem_cons.mp hmem with rfl | hb2
        · rcases lexLe_total y b with hh | hh
          · exact hh
          · exact absurd hh h
        · exact hp.1 b hb2
      · exact ih hp.2

/-- Result of `sortStrings` is a permutation of the input. -/
theorem sortStrings_perm : ∀ d : List (List Nat), (sortStrings d).Perm d := by
  intro d
  induction d with
  | nil => exact List.Perm.refl []
  | cons x xs ih =>
    exact (insertSorted_perm x (sortStrings xs)).trans (List.Perm.cons x ih)

/-- Result of `sortStrings` is sorted. -/
theorem sortStrings_pairwise : ∀ d : List (List Nat),
    (sortStrings d).Pairwise (fun a b => lexLe a b = true) := by
  intro d
  induction d with
  | nil => simp [sortStrings]
  | cons x xs ih => exact insertSorted_pairwise x (sortStrings xs) ih

/-- Claim C10: `BuildSuccinctTrie` first sorts the caller-supplied dictionary
slice in place; after the call the caller's slice holds `sortStrings dict`,
a permutation of the original entries in lexicographic (byte-wise ascending)
order. No other caller-visible state is touched (in this pure model the
sorted dictionary is the only effect on the argument). -/
theorem sutrie_C10 (d : List (List Nat)) :
    (sortStrings d).Perm d ∧
      (sortStrings d).Pairwise (fun a b => lexLe a b = true) :=
  ⟨sortStrings_perm d, sortStrings_pairwise d⟩

/-- Dropping a prefix by predicate is idempotent. -/
theorem dropWhile_idem (p : Nat → Bool) :
    ∀ l : List Nat, (l.dropWhile p).dropWhile p = l.dropWhile p := by
  intro l
  induction l with
  | nil => rfl
  | cons a t ih =>
    by_cases h : p a = true
    · simp [List.dropWhile_cons, h, ih]
    · simp [List.dropWhile_cons, h]

/-- Trimming trailing zero words is idempotent. -/
theorem trimWords_idem (l : List Nat) : trimWords (trimWords l) = trimWords l := by
  unfold trimWords
  rw [List.reverse_reverse, dropWhile_idem]

/-- Finalizing an already-finalized word array reproduces the same bitset:
`init` depends only on the `bits` field, trimming is idempotent, and the rank
and hint tables are recomputed deterministically. -/
theorem init_idem (b b' : bitset) (h : b.init = some b') :
    ∀ x y, (bitset.mk b'.bits x y).init = some b' := by
  intro x y
  simp only [bitset.init] at h ⊢
  split at h
  · exact absurd h (by simp)
  · rename_i ranks sl t heq
    split at h
    · rename_i hg
      simp only [Option.some.injEq] at h
      subst h
      simp only
      rw [trimWords_idem, heq]
      simp [hg]
    · exact absurd h (by simp)

/-- Through `groupLoop`, the rank/hint accelerators of `leaves` stay nil
(`setBit` clears `ranks` and never touches `sl`). -/
theorem groupLoop_leaves_nil (dict : List (List Nat)) (depth R : Nat) :
    ∀ (f i : Nat) (s : BuildState), s.leaves.ranks = [] → s.leaves.sl = [] →
      (groupLoop dict depth R f i s).leaves.ranks = [] ∧
        (groupLoop dict depth R f i s).leaves.sl = [] := by
  intro f
  induction f with
  | zero => intro i s h1 h2; exact ⟨h1, h2⟩
  | succ f ih =>
    intro i s h1 h2
    unfold groupLoop
    by_cases hc : i < R
    · simp only [if_pos hc]
      by_cases hl : (dict.getD i []).length = depth + 1
      · simp only [if_pos hl]
        exact ih _ _ rfl h2
      · simp only [if_neg hl]
        exact ih _ _ h1 h2
    · simp only [if_neg hc]
      exact ⟨h1, h2⟩

/-- Through the whole BFS loop, the accelerators of `leaves` stay nil. -/
theorem buildLoop_leaves_nil (dict : List (List Nat)) :
    ∀ (f : Nat) (s s' : BuildState), s.leaves.ranks = [] → s.leaves.sl = [] →
      buildLoop dict f s = some s' →
      s'.leaves.ranks = [] ∧ s'.leaves.sl = [] := by
  intro f
  induction f with
  | zero =>
    intro s s' h1 h2 h
    unfold buildLoop at h
    split at h
    · simp only [Option.some.injEq] at h; subst h; exact ⟨h1, h2⟩
    · exact absurd h (by simp)
  | succ f ih =>
    intro s s' h1 h2 h
    unfold buildLoop at h
    split at h
    · simp only [Option.some.injEq] at h; subst h; exact ⟨h1, h2⟩
    · have := groupLoop_leaves_nil dict (s.q.pop.1.depth) (s.q.pop.1.r)
        (s.q.pop.1.r - advN dict s.q.pop.1.depth s.q.pop.1.r (s.q.pop.1.r - s.q.pop.1.l) s.q.pop.1.l)
        (advN dict s.q.pop.1.depth s.q.pop.1.r (s.q.pop.1.r - s.q.pop.1.l) s.q.pop.1.l)
        { bitmap := s.bitmap.setBit s.zeroIdx true, leaves := s.leaves, size := s.size,
          nodes := s.nodes, zeroIdx := s.zeroIdx + 1, q := s.q.pop.2 } h1 h2
      exact ih _ _ this.1 this.2 h

/-- Claim C4: round-trip. Unmarshalling the record produced by marshalling a
built store yields exactly the same store (hence byte-identical `nodes`,
identical `bitmap`/`leaves` bit patterns, identical `size`, and literally
equal results for every query operation on the two stores). -/
theorem sutrie_C4 (d : List (List Nat)) (t : SuccinctTrie)
    (h : BuildSuccinctTrie d = some t) :
    SuccinctTrie.Unmarshal t.Marshal = some t := by
  simp only [BuildSuccinctTrie] at h
  split at h
  · exact absurd h (by simp)
  · rename_i s hloop
    split at h
    · exact absurd h (by simp)
    · rename_i bm hinit
      simp only [Option.some.injEq] at h
      have hn : s.leaves.ranks = [] ∧ s.leaves.sl = [] := by
        apply buildLoop_leaves_nil _ _ _ _ _ _ hloop
        · rfl
        · rfl
      have hleq : bitset.mk s.leaves.bits [] [] = s.leaves := by
        cases hsl : s.leaves with
        | mk bs rk sl =>
          rw [hsl] at hn
          simp only at hn
          rw [hn.1, hn.2]
      subst h
      unfold SuccinctTrie.Unmarshal SuccinctTrie.Marshal
      simp only
      rw [init_idem _ _ hinit]
      simp [hleq]

/-- Witness for C4 at the concrete dictionary `[['a']]`. -/
theorem sutrie_C4_witness :
    SuccinctTrie.Unmarshal (((BuildSuccinctTrie [[97]]).getD default).Marshal) =
      some ((BuildSuccinctTrie [[97]]).getD default) := by
  have h : BuildSuccinctTrie [[97]] = some ((BuildSuccinctTrie [[97]]).getD default) := by
    decide
  exact sutrie_C4 [[97]] _ h

/-- Position of the `(n+1)`-th set bit of `w` (0-indexed positions and `n`),
fuel-indexed on successive halvings; meaningful when `n < popc w`. -/
def nthOneF : Nat → Nat → Nat → Nat
  | 0, _, _ => 0
  | f + 1, w, n =>
    if w % 2 = 1 then (if n = 0 then 0 else nthOneF f (w / 2) (n - 1) + 1)
    else nthOneF f (w / 2) n + 1

/-- Position of the `(n+1)`-th set bit of `w`, for `n < popc w`. -/
def nthOne (w n : Nat) : Nat := nthOneF w w n

/-- Fuel irrelevance for `nthOneF` below the popcount. -/
theorem nthOneF_congr : ∀ {f₁ f₂ w n : Nat}, n < popc w → w ≤ f₁ → w ≤ f₂ →
    nthOneF f₁ w n = nthOneF f₂ w n := by
  intro f₁
  induction f₁ with
  | zero =>
    intro f₂ w n hn h1 _
    have hw : w = 0 := by omega
    subst hw
    rw [popc_eq] at hn
    simp at hn
  | succ f ih =>
    intro f₂ w n hn h1 h2
    have hw : w ≠ 0 := by
      intro hw0
      subst hw0
      rw [popc_eq] at hn
      simp at hn
    obtain ⟨f₂', rfl⟩ : ∃ m, f₂ = m + 1 := by
      cases f₂ with
      | zero => omega
      | succ m => exact ⟨m, rfl⟩
    have hw2 : w / 2 < w := Nat.div_lt_self (by omega) (by norm_num)
    rw [popc_eq, if_neg hw] at hn
    by_cases hp : w % 2 = 1
    · simp only [nthOneF, if_pos hp]
      by_cases hn0 : n = 0
      · simp [hn0]
      · simp only [if_neg hn0]
        have := @ih f₂' (w / 2) (n - 1) (by omega) (by omega) (by omega)
        omega
    · simp only [nthOneF, if_neg hp]
      have := @ih f₂' (w / 2) n (by omega) (by omega) (by omega)
      omega

/-- Recursion equation for `nthOne` below the popcount. -/
theorem nthOne_eq (w n : Nat) (h : n < popc w) :
    nthOne w n =
      if w % 2 = 1 then (if n = 0 then 0 else nthOne (w / 2) (n - 1) + 1)
      else nthOne (w / 2) n + 1 := by
  have hw : w ≠ 0 := by
    intro hw0
    subst hw0
    rw [popc_eq] at h
    simp at h
  obtain ⟨m, rfl⟩ : ∃ m, w = m + 1 := by
    cases w with
    | zero => omega
    | succ m => exact ⟨m, rfl⟩
  rw [popc_eq] at h
  simp only [if_neg hw] at h
  show nthOneF (m + 1) (m + 1) n = _
  simp only [nthOneF]
  by_cases hp : (m + 1) % 2 = 1
  · simp only [if_pos hp]
    by_cases hn0 : n = 0
    · simp [hn0]
    · simp only [if_neg hn0]
      have : nthOneF m ((m + 1) / 2) (n - 1) = nthOne ((m + 1) / 2) (n - 1) :=
        nthOneF_congr (by omega) (by omega) (by omega)
      omega
  · simp only [if_neg hp]
    have hp0 : (m + 1) % 2 = 0 := by omega
    have : nthOneF m ((m + 1) / 2) n = nthOne ((m + 1) / 2) n :=
      nthOneF_congr (by omega) (by omega) (by omega)
    omega

/-- Single-bit split of the population count. -/
theorem popc_split_one (w : Nat) : popc w = w % 2 + popc (w / 2) := by
  rw [popc_eq]
  by_cases h : w = 0
  · subst h; simp [popc, popcF]
  · simp only [if_neg h]; omega

/-- Population count splits at any bit boundary. -/
theorem popc_split : ∀ (k w : Nat), popc w = popc (w % 2 ^ k) + popc (w >>> k) := by
  intro k
  induction k with
  | zero =>
    intro w
    simp [Nat.pow_zero, Nat.mod_one, Nat.shiftRight_zero, popc, popcF]
  | succ k ih =>
    intro w
    have h1 : w % 2 ^ (k + 1) % 2 = w % 2 := by
      apply Nat.mod_mod_of_dvd
      exact Dvd.intro_left (2 ^ k) (by ring)
    have h2 : w % 2 ^ (k + 1) / 2 = w / 2 % 2 ^ k := by
      have : (2 : Nat) ^ (k + 1) = 2 * 2 ^ k := by ring
      rw [this]
      exact Nat.mod_mul_right_div_self w 2 (2 ^ k)
    have h3 : w >>> (k + 1) = (w / 2) >>> k := by
      rw [Nat.shiftRight_eq_div_pow, Nat.shiftRight_eq_div_pow, Nat.div_div_eq_div_mul]
      congr 1
      ring
    rw [popc_split_one (w % 2 ^ (k + 1)), h1, h2, h3, Nat.add_assoc, ← ih (w / 2),
      ← popc_split_one w]

/-- Population count is bounded by the bit width. -/
theorem popc_le_width : ∀ (m w : Nat), w < 2 ^ m → popc w ≤ m := by
  intro m
  induction m with
  | zero =>
    intro w hw
    have : w = 0 := by omega
    subst this
    simp [popc, popcF]
  | succ m ih =>
    intro w hw
    rw [popc_split_one]
    have : w / 2 < 2 ^ m := by
      rw [Nat.pow_succ] at hw
      omega
    have := ih (w / 2) this
    omega

/-- Counting the set bits of a word below its width equals the popcount. -/
theorem count_testBit : ∀ (m w : Nat), w < 2 ^ m →
    ((List.range m).filter (fun p => w.testBit p)).length = popc w := by
  intro m
  induction m with
  | zero =>
    intro w hw
    have : w = 0 := by omega
    subst this
    simp [popc, popcF]
  | succ m ih =>
    intro w hw
    rw [List.range_succ_eq_map, List.filter_cons, List.filter_map]
    have hcomp : ((fun p => w.testBit p) ∘ Nat.succ) = fun p => (w / 2).testBit p := by
      funext p
      simp [Function.comp, Nat.testBit_succ]
    rw [hcomp]
    have hw2 : w / 2 < 2 ^ m := by
      rw [Nat.pow_succ] at hw
      omega
    have hih := ih (w / 2) hw2
    by_cases hp : w % 2 = 1
    · have : w.testBit 0 = true := by simp [Nat.testBit_zero, hp]
      simp only [this, if_pos]
      rw [popc_split_one]
      simp [List.length_map, hih, hp]
      omega
    · have : w.testBit 0 = false := by simp [Nat.testBit_zero]; omega
      simp only [this]
      rw [popc_split_one]
      simp [List.length_map, hih]
      omega

/-- Ascending list of the set-bit positions of a 64-bit word. -/
def wordOnesList (w : Nat) : List Nat := (List.range 64).filter (fun p => w.testBit p)

/-- Ascending list of all set-bit positions of a word array (the positions of
word `i` live at `64*i .. 64*i+63`). -/
def onesPositions : List Nat → List Nat
  | [] => []
  | w :: rest => wordOnesList w ++ (onesPositions rest).map (· + 64)

/-- Rank before word `i`: total popcount of words `0..i-1`. -/
def rankAt (ws : List Nat) (i : Nat) : Nat := ((ws.take i).map popc).sum

/-- Locating a bit in the low part: if the `(n+1)`-th set bit lies below bit
`k`, high bits do not matter. -/
theorem nthOne_low : ∀ (k lo hi n : Nat), lo < 2 ^ k → n < popc lo →
    nthOne (lo + 2 ^ k * hi) n = nthOne lo n := by
  intro k
  induction k with
  | zero =>
    intro lo hi n hlo hn
    interval_cases lo
    rw [popc_eq] at hn
    simp at hn
  | succ k ih =>
    intro lo hi n hlo hn
    have hw : lo + 2 ^ (k + 1) * hi ≠ 0 ∨ True := Or.inr trivial
    have hsplit : (lo + 2 ^ (k + 1) * hi) % 2 = lo % 2 := by
      have h2 : 2 ^ (k + 1) * hi = 2 * (2 ^ k * hi) := by ring
      omega
    have hdiv : (lo + 2 ^ (k + 1) * hi) / 2 = lo / 2 + 2 ^ k * hi := by
      have h2 : 2 ^ (k + 1) * hi = 2 * (2 ^ k * hi) := by ring
      rw [h2, Nat.add_mul_div_left _ _ (by norm_num : (0:Nat) < 2)]
    have hlo2 : lo / 2 < 2 ^ k := by
      rw [Nat.pow_succ] at hlo
      omega
    have hpw : n < popc (lo + 2 ^ (k + 1) * hi) := by
      rw [popc_split_one (lo + 2 ^ (k + 1) * hi), hsplit, hdiv]
      rw [popc_split_one lo] at hn
      have hcomp : popc (lo / 2) ≤ popc (lo / 2 + 2 ^ k * hi) := by
        conv_rhs => rw [popc_split k (lo / 2 + 2 ^ k * hi)]
        have : (lo / 2 + 2 ^ k * hi) % 2 ^ k = lo / 2 % 2 ^ k := by
          simp [Nat.add_mul_mod_self_left]
        rw [this, Nat.mod_eq_of_lt hlo2]
        omega
      omega
    rw [nthOne_eq _ _ hpw, nthOne_eq _ _ hn, hsplit, hdiv]
    rw [popc_split_one lo] at hn
    by_cases hp : lo % 2 = 1
    · simp only [if_pos hp]
      by_cases hn0 : n = 0
      · simp [hn0]
      · simp only [if_neg hn0]
        rw [ih (lo / 2) hi (n - 1) hlo2 (by omega)]
    · simp only [if_neg hp]
      rw [ih (lo / 2) hi n hlo2 (by omega)]

/-- Locating a bit in the high part: if the first `popc lo` set bits are
skipped, the `(n+1)`-th set bit lies at `k` plus its position within `hi`. -/
theorem nthOne_high : ∀ (k lo hi n : Nat), lo < 2 ^ k → popc lo ≤ n →
    n < popc (lo + 2 ^ k * hi) →
    nthOne (lo + 2 ^ k * hi) n = k + nthOne hi (n - popc lo) := by
  intro k
  induction k with
  | zero =>
    intro lo hi n hlo hnl hn
    interval_cases lo
    simp only [Nat.pow_zero, Nat.one_mul, Nat.zero_add] at hn ⊢
    have h0 : popc 0 = 0 := by simp [popc, popcF]
    rw [h0]
    simp
  | succ k ih =>
    intro lo hi n hlo hnl hn
    have hsplit : (lo + 2 ^ (k + 1) * hi) % 2 = lo % 2 := by
      have h2 : 2 ^ (k + 1) * hi = 2 * (2 ^ k * hi) := by ring
      omega
    have hdiv : (lo + 2 ^ (k + 1) * hi) / 2 = lo / 2 + 2 ^ k * hi := by
      have h2 : 2 ^ (k + 1) * hi = 2 * (2 ^ k * hi) := by ring
      rw [h2, Nat.add_mul_div_left _ _ (by norm_num : (0:Nat) < 2)]
    have hlo2 : lo / 2 < 2 ^ k := by
      rw [Nat.pow_succ] at hlo
      omega
    rw [nthOne_eq _ _ hn, hsplit, hdiv]
    rw [popc_split_one lo] at hnl
    have hn' : n - lo % 2 < popc (lo / 2 + 2 ^ k * hi) := by
      rw [popc_split_one (lo + 2 ^ (k + 1) * hi), hsplit, hdiv] at hn
      omega
    by_cases hp : lo % 2 = 1
    · simp only [if_pos hp]
      have hn0 : n ≠ 0 := by omega
      simp only [if_neg hn0]
      rw [ih (lo / 2) hi (n - 1) hlo2 (by omega) (by rw [hp] at hn'; omega)]
      rw [popc_split_one lo, hp]
      have harg : n - 1 - popc (lo / 2) = n - (1 + popc (lo / 2)) := by omega
      rw [harg]
      omega
    · simp only [if_neg hp]
      have hp0 : lo % 2 = 0 := by omega
      rw [ih (lo / 2) hi n hlo2 (by omega) (by rw [hp0] at hn'; omega)]
      rw [popc_split_one lo, hp0]
      have harg : n - popc (lo / 2) = n - (0 + popc (lo / 2)) := by omega
      rw [harg]
      omega

/-- Indexing the set-bit list of a word: entry `n` is `nthOne w n`. -/
theorem wordOnes_get : ∀ (m w n : Nat), w < 2 ^ m → n < popc w →
    ((List.range m).filter (fun p => w.testBit p)).get? n = some (nthOne w n) := by
  intro m
  induction m with
  | zero =>
    intro w n hw hn
    interval_cases w
    rw [popc_eq] at hn
    simp at hn
  | succ m ih =>
    intro w n hw hn
    rw [List.range_succ_eq_map, List.filter_cons, List.filter_map]
    have hcomp : ((fun p => w.testBit p) ∘ Nat.succ) = fun p => (w / 2).testBit p := by
      funext p
      simp [Function.comp, Nat.testBit_succ]
    rw [hcomp]
    have hw2 : w / 2 < 2 ^ m := by
      rw [Nat.pow_succ] at hw
      omega
    rw [nthOne_eq _ _ hn]
    rw [popc_split_one] at hn
    by_cases hp : w % 2 = 1
    · have ht : w.testBit 0 = true := by simp [Nat.testBit_zero, hp]
      simp only [ht, if_pos, if_true]
      by_cases hn0 : n = 0
      · simp [hn0, hp]
      · obtain ⟨n', rfl⟩ : ∃ m, n = m + 1 := by
          cases n with
          | zero => omega
          | succ m2 => exact ⟨m2, rfl⟩
        simp only [hp, if_true, if_neg hn0]
        rw [List.get?_cons_succ, List.get?_map, ih (w / 2) n' hw2 (by omega)]
        simp
    · have ht : w.testBit 0 = false := by simp [Nat.testBit_zero]; omega
      simp only [ht, Bool.false_eq_true, if_false, if_neg hp]
      rw [List.get?_map, ih (w / 2) n hw2 (by omega)]
      simp

set_option maxRecDepth 8192 in
/-- The byte table `pop8tab` tabulates the population count. -/
theorem pop8tab_correct : ∀ c : Nat, c < 256 → pop8tab.getD c 0 = popc c := by decide

set_option maxRecDepth 8192 in
/-- Rows of `precomp` are addressable up to index 7. -/
theorem precompGet : ∀ n : Nat, n < 8 → precomp.get? n = some (precomp.getD n []) := by decide

set_option maxRecDepth 8192 in
/-- Row `n` of `precomp` tabulates the position of the `(n+1)`-th set bit of a
byte, whenever that bit exists. -/
theorem precomp_correct : ∀ n : Nat, n < 8 → ∀ c : Nat, c < 256 → n < popc c →
    (precomp.getD n []).getD c 0 = nthOne c n := by decide

/-- Splitting a mod-window population count at an inner boundary. -/
theorem popc_mod_split (v a b : Nat) :
    popc (v % 2 ^ (a + b)) = popc (v % 2 ^ a) + popc ((v >>> a) % 2 ^ b) := by
  have h1 : v % 2 ^ (a + b) % 2 ^ a = v % 2 ^ a :=
    Nat.mod_mod_of_dvd v (pow_dvd_pow 2 (Nat.le_add_right a b))
  have h2 : (v % 2 ^ (a + b)) >>> a = (v >>> a) % 2 ^ b := by
    rw [Nat.shiftRight_eq_div_pow, Nat.shiftRight_eq_div_pow, pow_add]
    exact Nat.mod_mul_right_div_self v (2 ^ a) (2 ^ b)
  rw [popc_split a (v % 2 ^ (a + b)), h1, h2]

/-- Low-window population count never exceeds the full count. -/
theorem popc_mod_le (v k : Nat) : popc (v % 2 ^ k) ≤ popc v := by
  rw [popc_split k v]
  omega

/-- Byte mask is a mod. -/
theorem and255 (x : Nat) : x &&& 255 = x % 2 ^ 8 := by
  rw [show (255 : Nat) = 2 ^ 8 - 1 by norm_num]
  exact Nat.and_pow_two_sub_one_eq_mod x 8

/-- Applying `pop8tab` to a masked value computes that byte's popcount. -/
theorem pop8_at (x : Nat) : pop8tab.getD (x % 2 ^ 8) 0 = popc (x % 2 ^ 8) :=
  pop8tab_correct (x % 2 ^ 8) (by have := Nat.mod_lt x (show 0 < 2 ^ 8 by norm_num); omega)

/-- The four byte lookups of `nthSet`'s first stage sum to the popcount of the
low 32 bits. -/
theorem popc_bytes32 (v : Nat) :
    popc ((v >>> 24) % 2 ^ 8) + popc ((v >>> 16) % 2 ^ 8) + popc ((v >>> 8) % 2 ^ 8) +
      popc (v % 2 ^ 8) = popc (v % 2 ^ 32) := by
  have h1 := popc_mod_split v 8 24
  have h2 := popc_mod_split (v >>> 8) 8 16
  have h3 := popc_mod_split (v >>> 8 >>> 8) 8 8
  rw [show (8 + 24 : Nat) = 32 by norm_num] at h1
  rw [show (8 + 16 : Nat) = 24 by norm_num] at h2
  rw [show (8 + 8 : Nat) = 16 by norm_num] at h3
  have e1 : v >>> 16 = v >>> 8 >>> 8 := by rw [← Nat.shiftRight_add]
  have e2 : v >>> 24 = v >>> 8 >>> 8 >>> 8 := by
    rw [← Nat.shiftRight_add, ← Nat.shiftRight_add]
  rw [e1, e2]
  omega

/-- The two byte lookups of `nthSet`'s second stage sum to the popcount of the
low 16 bits. -/
theorem popc_bytes16 (x : Nat) :
    popc ((x >>> 8) % 2 ^ 8) + popc (x % 2 ^ 8) = popc (x % 2 ^ 16) := by
  have h := popc_mod_split x 8 8
  rw [show (8 + 8 : Nat) = 16 by norm_num] at h
  omega

/-- High-part step for `nthOne`: skip the set bits of the low `a`-bit window. -/
theorem nthOne_skip (a x m : Nat) (h : popc (x % 2 ^ a) ≤ m) (h2 : m < popc x) :
    nthOne x m = a + nthOne (x >>> a) (m - popc (x % 2 ^ a)) := by
  have hx : x % 2 ^ a + 2 ^ a * (x >>> a) = x := by
    rw [Nat.shiftRight_eq_div_pow]
    exact Nat.mod_add_div x (2 ^ a)
  have hmain := nthOne_high a (x % 2 ^ a) (x >>> a) m
    (Nat.mod_lt x (Nat.pos_pow_of_pos a (by norm_num))) h (by rw [hx]; exact h2)
  rw [hx] at hmain
  exact hmain

/-- Low-part step for `nthOne`: high bits beyond the window are irrelevant. -/
theorem nthOne_keep (a x m : Nat) (h : m < popc (x % 2 ^ a)) :
    nthOne x m = nthOne (x % 2 ^ a) m := by
  have hx : x % 2 ^ a + 2 ^ a * (x >>> a) = x := by
    rw [Nat.shiftRight_eq_div_pow]
    exact Nat.mod_add_div x (2 ^ a)
  have hmain := nthOne_low a (x % 2 ^ a) (x >>> a) m
    (Nat.mod_lt x (Nat.pos_pow_of_pos a (by norm_num))) h
  rw [hx] at hmain
  exact hmain

/-- Correctness of `nthSet`: for a 64-bit word and `n` below its popcount it
returns the position of the `(n+1)`-th set bit, located byte-wise via the
`pop8tab`/`precomp` tables. -/
theorem nthSet_correct (v n : Nat) (hv : v < 2 ^ 64) (hn : n < popc v) :
    nthSet v n = some (nthOne v n) := by
  have hfin : ∀ (v3 n3 sh3 : Nat), n3 < popc (v3 % 2 ^ 8) →
      (match precomp.get? n3 with
       | none => none
       | some row => some (row.getD (v3 % 2 ^ 8) 0 + sh3)) = some (nthOne v3 n3 + sh3) := by
    intro v3 n3 sh3 h3
    have hn8 : n3 < 8 := by
      have := popc_le_width 8 (v3 % 2 ^ 8) (Nat.mod_lt v3 (by norm_num))
      omega
    rw [precompGet n3 hn8]
    have hbyte : v3 % 2 ^ 8 < 256 := by
      have := Nat.mod_lt v3 (show 0 < 2 ^ 8 by norm_num)
      omega
    show some ((precomp.getD n3 []).getD (v3 % 2 ^ 8) 0 + sh3) = _
    rw [precomp_correct n3 hn8 (v3 % 2 ^ 8) hbyte h3, ← nthOne_keep 8 v3 n3 h3]
  have hv32 : v >>> 32 < 2 ^ 32 := by
    rw [Nat.shiftRight_eq_div_pow]
    apply Nat.div_lt_of_lt_mul
    calc v < 2 ^ 64 := hv
      _ = 2 ^ 32 * 2 ^ 32 := by norm_num
  simp only [nthSet, and255, pop8_at]
  rw [popc_bytes32 v]
  by_cases h1 : popc (v % 2 ^ 32) ≤ n
  · simp only [if_pos h1]
    have hs1 : nthOne v n = 32 + nthOne (v >>> 32) (n - popc (v % 2 ^ 32)) :=
      nthOne_skip 32 v n h1 hn
    have hi1 : n - popc (v % 2 ^ 32) < popc (v >>> 32) := by
      have := popc_split 32 v
      omega
    rw [popc_bytes16 (v >>> 32)]
    by_cases h2 : popc (v >>> 32 % 2 ^ 16) ≤ n - popc (v % 2 ^ 32)
    · simp only [if_pos h2]
      have hs2 : nthOne (v >>> 32) (n - popc (v % 2 ^ 32)) =
          16 + nthOne (v >>> 32 >>> 16)
            (n - popc (v % 2 ^ 32) - popc (v >>> 32 % 2 ^ 16)) :=
        nthOne_skip 16 (v >>> 32) (n - popc (v % 2 ^ 32)) h2 hi1
      have hi2 : n - popc (v % 2 ^ 32) - popc (v >>> 32 % 2 ^ 16) <
          popc (v >>> 32 >>> 16 % 2 ^ 16) := by
        have ha := popc_mod_split (v >>> 32) 16 16
        rw [show (16 + 16 : Nat) = 32 by norm_num, Nat.mod_eq_of_lt hv32] at ha
        omega
      by_cases h3 : popc (v >>> 32 >>> 16 % 2 ^ 8) ≤
          n - popc (v % 2 ^ 32) - popc (v >>> 32 % 2 ^ 16)
      · simp only [if_pos h3]
        have hs3 : nthOne (v >>> 32 >>> 16)
              (n - popc (v % 2 ^ 32) - popc (v >>> 32 % 2 ^ 16)) =
            8 + nthOne (v >>> 32 >>> 16 >>> 8)
              (n - popc (v % 2 ^ 32) - popc (v >>> 32 % 2 ^ 16) -
                popc (v >>> 32 >>> 16 % 2 ^ 8)) :=
          nthOne_skip 8 (v >>> 32 >>> 16) _ h3 (lt_of_lt_of_le hi2 (popc_mod_le _ 16))
        have hi3 : n - popc (v % 2 ^ 32) - popc (v >>> 32 % 2 ^ 16) -
              popc (v >>> 32 >>> 16 % 2 ^ 8) < popc (v >>> 32 >>> 16 >>> 8 % 2 ^ 8) := by
          have ha := popc_mod_split (v >>> 32 >>> 16) 8 8
          rw [show (8 + 8 : Nat) = 16 by norm_num] at ha
          omega
        rw [hfin _ _ _ hi3]
        exact congrArg some (by omega)
      · simp only [if_neg h3]
        have hi3 : n - popc (v % 2 ^ 32) - popc (v >>> 32 % 2 ^ 16) <
            popc (v >>> 32 >>> 16 % 2 ^ 8) := by omega
        rw [hfin _ _ _ hi3]
        exact congrArg some (by omega)
    · simp only [if_neg h2]
      have hi1' : n - popc (v % 2 ^ 32) < popc (v >>> 32 % 2 ^ 16) := by omega
      by_cases h3 : popc (v >>> 32 % 2 ^ 8) ≤ n - popc (v % 2 ^ 32)
      · simp only [if_pos h3]
        have hs3 : nthOne (v >>> 32) (n - popc (v % 2 ^ 32)) =
            8 + nthOne (v >>> 32 >>> 8)
              (n - popc (v % 2 ^ 32) - popc (v >>> 32 % 2 ^ 8)) :=
          nthOne_skip 8 (v >>> 32) _ h3 hi1
        have hi3 : n - popc (v % 2 ^ 32) - popc (v >>> 32 % 2 ^ 8) <
            popc (v >>> 32 >>> 8 % 2 ^ 8) := by
          have ha := popc_mod_split (v >>> 32) 8 8
          rw [show (8 + 8 : Nat) = 16 by norm_num] at ha
          omega
        rw [hfin _ _ _ hi3]
        exact congrArg some (by omega)
      · simp only [if_neg h3]
        have hi3 : n - popc (v % 2 ^ 32) < popc (v >>> 32 % 2 ^ 8) := by omega
        rw [hfin _ _ _ hi3]
        exact congrArg some (by omega)
  · simp only [if_neg h1]
    have hi0 : n < popc (v % 2 ^ 32) := by omega
    rw [popc_bytes16 v]
    by_cases h2 : popc (v % 2 ^ 16) ≤ n
    · simp only [if_pos h2]
      have hs2 : nthOne v n = 16 + nthOne (v >>> 16) (n - popc (v % 2 ^ 16)) :=
        nthOne_skip 16 v n h2 hn
      have hi2 : n - popc (v % 2 ^ 16) < popc (v >>> 16 % 2 ^ 16) := by
        have ha := popc_mod_split v 16 16
        rw [show (16 + 16 : Nat) = 32 by norm_num] at ha
        omega
      by_cases h3 : popc (v >>> 16 % 2 ^ 8) ≤ n - popc (v % 2 ^ 16)
      · simp only [if_pos h3]
        have hs3 : nthOne (v >>> 16) (n - popc (v % 2 ^ 16)) =
            8 + nthOne (v >>> 16 >>> 8)
              (n - popc (v % 2 ^ 16) - popc (v >>> 16 % 2 ^ 8)) :=
          nthOne_skip 8 (v >>> 16) _ h3 (lt_of_lt_of_le hi2 (popc_mod_le _ 16))
        have hi3 : n - popc (v % 2 ^ 16) - popc (v >>> 16 % 2 ^ 8) <
            popc (v >>> 16 >>> 8 % 2 ^ 8) := by
          have ha := popc_mod_split (v >>> 16) 8 8
          rw [show (8 + 8 : Nat) = 16 by norm_num] at ha
          omega
        rw [hfin _ _ _ hi3]
        exact congrArg some (by omega)
      · simp only [if_neg h3]
        have hi3 : n - popc (v % 2 ^ 16) < popc (v >>> 16 % 2 ^ 8) := by omega
        rw [hfin _ _ _ hi3]
        exact congrArg some (by omega)
    · simp only [if_neg h2]
      have hi1'' : n < popc (v % 2 ^ 16) := by omega
      by_cases h3 : popc (v % 2 ^ 8) ≤ n
      · simp only [if_pos h3]
        have hs3 : nthOne v n = 8 + nthOne (v >>> 8) (n - popc (v % 2 ^ 8)) :=
          nthOne_skip 8 v n h3 hn
        have hi3 : n - popc (v % 2 ^ 8) < popc (v >>> 8 % 2 ^ 8) := by
          have ha := popc_mod_split v 8 8
          rw [show (8 + 8 : Nat) = 16 by norm_num] at ha
          omega
        rw [hfin _ _ _ hi3]
        exact congrArg some (by omega)
      · simp only [if_neg h3]
        have hi3 : n < popc (v % 2 ^ 8) := by omega
        rw [hfin _ _ _ hi3]
        exact congrArg some (by omega)

/-- Rank step: adding word `i` adds its popcount. -/
theorem rankAt_succ (ws : List Nat) (i : Nat) (w : Nat) (h : ws.get? i = some w) :
    rankAt ws (i + 1) = rankAt ws i + popc w := by
  unfold rankAt
  rw [List.take_succ]
  rw [List.get?_eq_getElem?] at h
  rw [h]
  simp

/-- Rank is unchanged past the end of the word list. -/
theorem rankAt_stable (ws : List Nat) (i : Nat) (h : ws.length ≤ i) :
    rankAt ws i = rankAt ws ws.length := by
  unfold rankAt
  rw [List.take_length_le h, List.take_length_le (Nat.le_refl _)]

/-- Rank is monotone. -/
theorem rankAt_mono (ws : List Nat) : ∀ {i j : Nat}, i ≤ j → rankAt ws i ≤ rankAt ws j := by
  have hstep : ∀ i : Nat, rankAt ws i ≤ rankAt ws (i + 1) := by
    intro i
    cases hg : ws.get? i with
    | none =>
      rw [List.get?_eq_none] at hg
      rw [rankAt_stable ws (i + 1) (by omega), rankAt_stable ws i hg]
    | some w =>
      rw [rankAt_succ ws i w hg]
      omega
  intro i j hij
  induction j with
  | zero =>
    have : i = 0 := by omega
    subst this
    exact Nat.le_refl _
  | succ j ih =>
    by_cases hj : i = j + 1
    · subst hj; exact Nat.le_refl _
    · exact le_trans (ih (by omega)) (hstep j)

/-- Rank over a cons cell. -/
theorem rankAt_cons (w : Nat) (rest : List Nat) (i : Nat) :
    rankAt (w :: rest) (i + 1) = popc w + rankAt rest i := by
  unfold rankAt
  rw [List.take_succ_cons]
  simp

/-- Length of the ones-position list is the total rank. -/
theorem onesPos_length (ws : List Nat) (hwf : ∀ w ∈ ws, w < 2 ^ 64) :
    (onesPositions ws).length = rankAt ws ws.length := by
  induction ws with
  | nil => rfl
  | cons w rest ih =>
    show (wordOnesList w ++ (onesPositions rest).map (· + 64)).length = _
    rw [List.length_append, List.length_map]
    rw [show (w :: rest).length = rest.length + 1 from rfl, rankAt_cons]
    rw [ih (fun x hx => hwf x (List.mem_cons_of_mem w hx))]
    have := count_testBit 64 w (hwf w (List.mem_cons_self w rest))
    unfold wordOnesList
    omega

/-- Indexing the global ones-position list: if the `k`-th set bit (1-indexed)
falls in word `tgt`, its position is `64*tgt` plus the in-word offset. -/
theorem onesPos_get (ws : List Nat) (hwf : ∀ w ∈ ws, w < 2 ^ 64) :
    ∀ (tgt k w : Nat), ws.get? tgt = some w → rankAt ws tgt < k →
      k ≤ rankAt ws (tgt + 1) →
      (onesPositions ws).get? (k - 1) =
        some (64 * tgt + nthOne w (k - rankAt ws tgt - 1)) := by
  induction ws with
  | nil => intro tgt k w h; simp at h
  | cons w0 rest ih =>
    intro tgt k w hget hlo hhi
    have hwf0 : w0 < 2 ^ 64 := hwf w0 (List.mem_cons_self w0 rest)
    have hwfr : ∀ x ∈ rest, x < 2 ^ 64 := fun x hx => hwf x (List.mem_cons_of_mem w0 hx)
    have hlen0 : (wordOnesList w0).length = popc w0 := count_testBit 64 w0 hwf0
    cases tgt with
    | zero =>
      have hw : w0 = w := by
        have : some w0 = some w := hget
        exact Option.some.inj this
      subst hw
      have hr0 : rankAt (w0 :: rest) 0 = 0 := rfl
      have hr1 : rankAt (w0 :: rest) 1 = popc w0 := by
        have h01 := rankAt_cons w0 rest 0
        norm_num at h01
        have : rankAt rest 0 = 0 := rfl
        omega
      rw [hr0] at hlo
      rw [hr1] at hhi
      show (wordOnesList w0 ++ (onesPositions rest).map (· + 64)).get? (k - 1) = _
      rw [List.get?_append (by omega : k - 1 < (wordOnesList w0).length)]
      unfold wordOnesList
      rw [wordOnes_get 64 w0 (k - 1) hwf0 (by omega)]
      rw [hr0]
      norm_num
    | succ tgt' =>
      have hget' : rest.get? tgt' = some w := hget
      rw [rankAt_cons] at hlo hhi
      show (wordOnesList w0 ++ (onesPositions rest).map (· + 64)).get? (k - 1) = _
      rw [List.get?_append_right (by omega : (wordOnesList w0).length ≤ k - 1)]
      rw [List.get?_map, hlen0]
      have hih := ih hwfr tgt' (k - popc w0) w hget' (by omega) (by omega)
      rw [show k - 1 - popc w0 = k - popc w0 - 1 by omega, hih]
      rw [rankAt_cons]
      have harg : k - popc w0 - rankAt rest tgt' - 1 =
          k - (popc w0 + rankAt rest tgt') - 1 := by omega
      rw [harg]
      show some (64 * tgt' + nthOne w (k - (popc w0 + rankAt rest tgt') - 1) + 64) = _
      exact congrArg some (by omega)

/-- Existence of the crossing word for the `k`-th set bit. -/
theorem exists_crossing (ws : List Nat) (k : Nat) (hk : 0 < k) :
    ∀ n : Nat, k ≤ rankAt ws n →
      ∃ t, t < n ∧ rankAt ws t < k ∧ k ≤ rankAt ws (t + 1) := by
  intro n
  induction n with
  | zero =>
    intro h
    exfalso
    have : rankAt ws 0 = 0 := rfl
    omega
  | succ n ih =>
    intro h
    by_cases hn : k ≤ rankAt ws n
    · obtain ⟨t, ht1, ht2, ht3⟩ := ih hn
      exact ⟨t, by omega, ht2, ht3⟩
    · exact ⟨n, by omega, by omega, h⟩

/-- Characterization of the `init` loop: starting from word index `i` with the
invariants established (rank prefix, hint slot `t` one past the last crossed
64-boundary, hints filled for earlier boundaries), a successful run fills the
rank table completely and the hint table up to the last boundary. -/
theorem initLoop_spec :
    ∀ (rest ws : List Nat) (i t : Nat) (ranks sl : List Nat)
      (out : List Nat × List Nat × Nat),
      (∀ w ∈ ws, w < 2 ^ 64) →
      ws.drop i = rest →
      i ≤ ws.length →
      t = rankAt ws i / 64 + 1 →
      ranks = (List.range (i + 1)).map (rankAt ws) →
      sl.get? 0 = some 0 →
      (∀ j, 1 ≤ j → j < t → ∃ wj, sl.get? j = some wj ∧ wj < i ∧
          64 * j ≤ rankAt ws (wj + 1) ∧ rankAt ws wj < 64 * j) →
      initLoop rest i (rankAt ws i) t ranks sl = some out →
      out.1 = (List.range (ws.length + 1)).map (rankAt ws) ∧
        out.2.2 = rankAt ws ws.length / 64 + 1 ∧
        out.2.1.length = sl.length ∧
        out.2.1.get? 0 = some 0 ∧
        (∀ j, 1 ≤ j → j < rankAt ws ws.length / 64 + 1 →
          ∃ wj, out.2.1.get? j = some wj ∧ wj < ws.length ∧
            64 * j ≤ rankAt ws (wj + 1) ∧ rankAt ws wj < 64 * j) := by
  intro rest
  induction rest with
  | nil =>
    intro ws i t ranks sl out hwf hdrop hlen ht hranks hsl0 hslinv hrun
    have hieq : i = ws.length := by
      rw [List.drop_eq_nil_iff_le] at hdrop
      omega
    subst hieq
    simp only [initLoop, Option.some.injEq] at hrun
    subst hrun
    exact ⟨hranks, ht, rfl, hsl0, fun j h1 h2 => by
      obtain ⟨wj, ha, hb, hc, hd⟩ := hslinv j h1 (by omega)
      exact ⟨wj, ha, hb, hc, hd⟩⟩
  | cons w rest' ih =>
    intro ws i t ranks sl out hwf hdrop hlen ht hranks hsl0 hslinv hrun
    have hget : ws.get? i = some w := by
      have h0 : (ws.drop i).get? 0 = some w := by rw [hdrop]; rfl
      rw [List.get?_drop] at h0
      simpa using h0
    have hilt : i < ws.length := by
      by_contra hc
      rw [List.get?_eq_none.mpr (by omega)] at hget
      exact Option.noConfusion hget
    have hdrop' : ws.drop (i + 1) = rest' := by
      have : List.drop 1 (ws.drop i) = rest' := by rw [hdrop]; rfl
      rw [List.drop_drop] at this
      exact this
    have hrk' : rankAt ws i + popc w = rankAt ws (i + 1) := (rankAt_succ ws i w hget).symm
    have hpw : popc w ≤ 64 := popc_le_width 64 w (hwf w (List.get?_mem hget))
    have hranks' : ranks ++ [rankAt ws (i + 1)] =
        (List.range (i + 1 + 1)).map (rankAt ws) := by
      rw [List.range_succ, List.map_append, hranks]
      rfl
    simp only [initLoop] at hrun
    by_cases hcross : t ≤ (rankAt ws i + popc w) / 64
    · rw [if_pos hcross] at hrun
      by_cases hguard : t < sl.length
      · rw [if_pos hguard] at hrun
        have ht' : t + 1 = rankAt ws (i + 1) / 64 + 1 := by
          rw [← hrk']
          omega
        have hsl0' : (sl.set t i).get? 0 = some 0 := by
          rw [@List.get?_set_ne _ i t 0 sl (by omega)]
          exact hsl0
        have hslinv' : ∀ j, 1 ≤ j → j < t + 1 → ∃ wj, (sl.set t i).get? j = some wj ∧
            wj < i + 1 ∧ 64 * j ≤ rankAt ws (wj + 1) ∧ rankAt ws wj < 64 * j := by
          intro j hj1 hj2
          by_cases hjt : j = t
          · subst hjt
            obtain ⟨v, hv⟩ : ∃ v, sl.get? j = some v := by
              cases hg : sl.get? j with
              | none => rw [List.get?_eq_none] at hg; omega
              | some v => exact ⟨v, rfl⟩
            refine ⟨i, ?_, by omega, ?_, ?_⟩
            · rw [List.get?_set_eq i j sl, hv]
              rfl
            · rw [← hrk']; omega
            · omega
          · obtain ⟨wj, ha, hb, hc, hd⟩ := hslinv j hj1 (by omega)
            exact ⟨wj, by rw [@List.get?_set_ne _ i t j sl (Ne.symm hjt)]; exact ha,
              by omega, hc, hd⟩
        have := ih ws (i + 1) (t + 1) (ranks ++ [rankAt ws i + popc w]) (sl.set t i) out
          hwf hdrop' (by omega) ht' (by rw [hrk']; exact hranks') hsl0' hslinv'
          (by rw [hrk'] at hrun ⊢; exact hrun)
        rw [List.length_set] at this
        exact this
      · rw [if_neg hguard] at hrun
        exact Option.noConfusion hrun
    · rw [if_neg hcross] at hrun
      have ht' : t = rankAt ws (i + 1) / 64 + 1 := by
        rw [← hrk']
        have h1 : rankAt ws i / 64 ≤ (rankAt ws i + popc w) / 64 := by omega
        have h2 : (rankAt ws i + popc w) / 64 ≤ rankAt ws i / 64 + 1 := by omega
        omega
      have hslinv' : ∀ j, 1 ≤ j → j < t → ∃ wj, sl.get? j = some wj ∧
          wj < i + 1 ∧ 64 * j ≤ rankAt ws (wj + 1) ∧ rankAt ws wj < 64 * j := by
        intro j hj1 hj2
        obtain ⟨wj, ha, hb, hc, hd⟩ := hslinv j hj1 hj2
        exact ⟨wj, ha, by omega, hc, hd⟩
      exact ih ws (i + 1) t (ranks ++ [rankAt ws i + popc w]) sl out
        hwf hdrop' (by omega) ht' (by rw [hrk']; exact hranks') hsl0 hslinv'
        (by rw [hrk'] at hrun ⊢; exact hrun)

/-- Words surviving the trim are words of the original array. -/
theorem trimWords_mem {l : List Nat} {w : Nat} (h : w ∈ trimWords l) : w ∈ l := by
  unfold trimWords at h
  rw [List.mem_reverse] at h
  have hmem := List.Sublist.mem h (List.dropWhile_sublist (fun x => x == 0))
  rw [List.mem_reverse] at hmem
  exact hmem

/-- Characterization of a successfully finalized bitset: the word list is the
trimmed input, `ranks` tabulates `rankAt`, and the hint table `sl` brackets
every 64-boundary of the rank, with the final hint at the last word. -/
theorem init_spec (b b' : bitset) (hwf : ∀ w ∈ b.bits, w < 2 ^ 64)
    (h : b.init = some b') :
    (∀ w ∈ b'.bits, w < 2 ^ 64) ∧
      b'.bits = trimWords b.bits ∧
      b'.ranks = (List.range (b'.bits.length + 1)).map (rankAt b'.bits) ∧
      b'.sl.get? 0 = some 0 ∧
      (∀ j, 1 ≤ j → j < rankAt b'.bits b'.bits.length / 64 + 1 →
        ∃ wj, b'.sl.get? j = some wj ∧ wj < b'.bits.length ∧
          64 * j ≤ rankAt b'.bits (wj + 1) ∧ rankAt b'.bits wj < 64 * j) ∧
      b'.sl.get? (rankAt b'.bits b'.bits.length / 64 + 1) =
        some (b'.bits.length - 1) := by
  have hwfw : ∀ w ∈ trimWords b.bits, w < 2 ^ 64 := fun w hw => hwf w (trimWords_mem hw)
  simp only [bitset.init] at h
  split at h
  · exact absurd h (by simp)
  · rename_i ranks sl t heq
    split at h
    · rename_i hguard
      simp only [Option.some.injEq] at h
      have hrep0 : (List.replicate ((trimWords b.bits).length / 2 + 1 +
          (trimWords b.bits).length % 2) (0 : Nat)).get? 0 = some 0 := by
        have hpos : 0 < (trimWords b.bits).length / 2 + 1 + (trimWords b.bits).length % 2 := by
          omega
        obtain ⟨m, hm⟩ : ∃ m, (trimWords b.bits).length / 2 + 1 +
            (trimWords b.bits).length % 2 = m + 1 :=
          ⟨(trimWords b.bits).length / 2 + (trimWords b.bits).length % 2, by omega⟩
        rw [hm]
        rfl
      have hspec := initLoop_spec (trimWords b.bits) (trimWords b.bits) 0 1 [0]
        (List.replicate ((trimWords b.bits).length / 2 + 1 +
          (trimWords b.bits).length % 2) 0) (ranks, sl, t)
        hwfw rfl (Nat.zero_le _) (by simp [rankAt]) (by simp [List.range_succ, rankAt]) hrep0
        (fun j hj1 hj2 => absurd hj2 (by omega)) heq
      obtain ⟨hr, htF, hlenEq, hsl0F, hslinvF⟩ := hspec
      simp only at hr htF hlenEq hsl0F hslinvF
      obtain ⟨hb1, hb2, hb3⟩ : b'.bits = trimWords b.bits ∧ b'.ranks = ranks ∧
          b'.sl = sl.set t ((trimWords b.bits).length - 1) := by
        rw [← h]
        exact ⟨rfl, rfl, rfl⟩
      rw [hb1, hb2, hb3]
      have hsetne : ∀ j : Nat, j ≠ t →
          (sl.set t ((trimWords b.bits).length - 1)).get? j = sl.get? j := by
        intro j hj
        exact @List.get?_set_ne _ ((trimWords b.bits).length - 1) t j sl (Ne.symm hj)
      refine ⟨hwfw, rfl, hr, ?_, ?_, ?_⟩
      · rw [hsetne 0 (by omega)]
        exact hsl0F
      · intro j hj1 hj2
        obtain ⟨wj, ha, hb, hc, hd⟩ := hslinvF j hj1 (by omega)
        exact ⟨wj, by rw [hsetne j (by omega)]; exact ha, hb, hc, hd⟩
      · rw [show rankAt (trimWords b.bits) (trimWords b.bits).length / 64 + 1 = t
          from htF.symm]
        obtain ⟨v, hv⟩ : ∃ v, sl.get? t = some v := by
          cases hg : sl.get? t with
          | none => rw [List.get?_eq_none] at hg; omega
          | some v => exact ⟨v, rfl⟩
        rw [List.get?_set_eq _ t sl, hv]
        rfl
    · exact absurd h (by simp)

/-- The hint scan finds the word containing the `k`-th set bit: with the rank
table, exact fuel `r - l`, a start at or before the target and an end at or
after it, the scan stops exactly at the target word. -/
theorem selScan_spec (ws : List Nat) (k tgt : Nat)
    (ht1 : rankAt ws tgt < k) (ht2 : k ≤ rankAt ws (tgt + 1)) (htlen : tgt < ws.length) :
    ∀ (f l r : Nat), f = r - l → l ≤ tgt → tgt ≤ r →
      selScan ((List.range (ws.length + 1)).map (rankAt ws)) k f l r = some tgt := by
  intro f
  induction f with
  | zero =>
    intro l r hf hl hr
    have hlr : l = tgt ∧ tgt = r := by omega
    simp only [selScan, if_neg (by omega : ¬ l < r)]
    rw [hlr.1]
  | succ f ih =>
    intro l r hf hl hr
    have hlr : l < r := by omega
    simp only [selScan, if_pos hlr]
    have hacc : ((List.range (ws.length + 1)).map (rankAt ws)).get? (l + 1) =
        some (rankAt ws (l + 1)) := by
      rw [List.get?_map, List.get?_range (by omega : l + 1 < ws.length + 1)]
      rfl
    rw [hacc]
    by_cases hv : rankAt ws (l + 1) < k
    · simp only [if_pos hv]
      have hlt : l < tgt := by
        by_contra hc
        have : l = tgt := by omega
        subst this
        omega
      exact ih (l + 1) r (by omega) (by omega) hr
    · simp only [if_neg hv]
      have : l = tgt := by
        by_contra hc
        have hlt : l + 1 ≤ tgt := by omega
        have := rankAt_mono ws hlt
        omega
      rw [this]

/-- Full functional correctness of `selects` on a finalized bitset: for
`k ≥ 1` it returns the position of the `k`-th set bit, or `-1` when fewer
than `k` bits are set. -/
theorem selects_spec (b b' : bitset) (hwf : ∀ w ∈ b.bits, w < 2 ^ 64)
    (hinit : b.init = some b') (k : Nat) (hk : 1 ≤ k) :
    b'.selects (k : Int) =
      some (match (onesPositions b'.bits).get? (k - 1) with
            | none => (-1 : Int)
            | some p => (p : Int)) := by
  obtain ⟨hwfw, hbits, hranks, hsl0, hslinv, hslF⟩ := init_spec b b' hwf hinit
  have hlen : b'.ranks.length = b'.bits.length + 1 := by
    rw [hranks]
    simp
  have hlast : b'.ranks.get? (b'.ranks.length - 1) =
      some (rankAt b'.bits b'.bits.length) := by
    rw [hranks]
    have : ((List.range (b'.bits.length + 1)).map (rankAt b'.bits)).length - 1 =
        b'.bits.length := by simp
    rw [hranks] at hlen
    rw [hlen]
    simp only [Nat.add_sub_cancel]
    rw [List.get?_map, List.get?_range (by omega)]
    rfl
  simp only [bitset.selects]
  split
  · rename_i heqn
    rw [hlast] at heqn
    exact Option.noConfusion heqn
  · rename_i last heq
    rw [hlast] at heq
    have hlv : last = rankAt b'.bits b'.bits.length := Option.some.inj heq.symm
    subst hlv
    by_cases hbig : rankAt b'.bits b'.bits.length < k
    · rw [if_pos (by exact_mod_cast hbig)]
      have hnone : (onesPositions b'.bits).get? (k - 1) = none := by
        rw [List.get?_eq_none, onesPos_length b'.bits hwfw]
        omega
      rw [hnone]
    · rw [if_neg (by exact_mod_cast hbig)]
      rw [if_neg (by omega : ¬ ((k : Int) < 0))]
      simp only [Int.toNat_natCast]
      have hkle : k ≤ rankAt b'.bits b'.bits.length := by omega
      obtain ⟨tgt, htn, ht1, ht2⟩ :=
        exists_crossing b'.bits k (by omega) b'.bits.length hkle
      have hjle : k / 64 ≤ rankAt b'.bits b'.bits.length / 64 :=
        Nat.div_le_div_right hkle
      have hl0 : ∃ l0, b'.sl.get? (k / 64) = some l0 ∧ l0 ≤ tgt := by
        by_cases hj : k / 64 = 0
        · rw [hj]
          exact ⟨0, hsl0, by omega⟩
        · obtain ⟨wj, ha, hb, hc, hd⟩ := hslinv (k / 64) (by omega) (by omega)
          refine ⟨wj, ha, ?_⟩
          by_contra hgt
          have hm : rankAt b'.bits (tgt + 1) ≤ rankAt b'.bits wj :=
            rankAt_mono _ (by omega)
          have hdm := Nat.div_mul_le_self k 64
          omega
      have hr0 : ∃ r0, b'.sl.get? (k / 64 + 1) = some r0 ∧ tgt ≤ r0 := by
        by_cases hj1 : k / 64 = rankAt b'.bits b'.bits.length / 64
        · rw [hj1]
          exact ⟨b'.bits.length - 1, hslF, by omega⟩
        · obtain ⟨wj, ha, hb, hc, hd⟩ := hslinv (k / 64 + 1) (by omega) (by omega)
          refine ⟨wj, ha, ?_⟩
          by_contra hgt
          have hm : rankAt b'.bits (wj + 1) ≤ rankAt b'.bits tgt :=
            rankAt_mono _ (by omega)
          have hk64 : k < 64 * (k / 64 + 1) := by omega
          omega
      obtain ⟨l0, hl0g, hl0le⟩ := hl0
      obtain ⟨r0, hr0g, hr0ge⟩ := hr0
      rw [hl0g, hr0g]
      dsimp only
      have hscan : selScan b'.ranks k (r0 - l0) l0 r0 = some tgt := by
        rw [hranks]
        exact selScan_spec b'.bits k tgt ht1 ht2 htn (r0 - l0) l0 r0 rfl hl0le hr0ge
      rw [hscan]
      dsimp only
      obtain ⟨w, hwg⟩ : ∃ w, b'.bits.get? tgt = some w := by
        cases hg : b'.bits.get? tgt with
        | none => rw [List.get?_eq_none] at hg; omega
        | some w => exact ⟨w, rfl⟩
      have hrkg : b'.ranks.get? tgt = some (rankAt b'.bits tgt) := by
        rw [hranks, List.get?_map, List.get?_range (by omega)]
        rfl
      rw [hwg, hrkg]
      dsimp only
      have hstep := rankAt_succ b'.bits tgt w hwg
      have hpw : popc w ≤ 64 := popc_le_width 64 w (hwfw w (List.get?_mem hwg))
      have harg : (((k : Int) - (rankAt b'.bits tgt : Int) - 1) % 256).toNat =
          k - rankAt b'.bits tgt - 1 := by
        have h1 : (k : Int) - (rankAt b'.bits tgt : Int) - 1 =
            ((k - rankAt b'.bits tgt - 1 : Nat) : Int) := by omega
        rw [h1, Int.emod_eq_of_lt (by omega) (by omega), Int.toNat_natCast]
      rw [harg]
      rw [nthSet_correct w (k - rankAt b'.bits tgt - 1)
        (hwfw w (List.get?_mem hwg)) (by omega)]
      rw [onesPos_get b'.bits hwfw tgt k w hwg ht1 ht2]
      simp only [Option.some_bind, Option.pure_def, Option.map_some]
      exact congrArg some (by push_cast; ring_nf)

/-- The bit vector with bits set exactly at positions 4, 5, 127, 128. -/
def tbVec : bitset :=
  ((((bitset.mk [] [] []).setBit 4 true).setBit 5 true).setBit 127 true).setBit 128 true

/-- Claim C3: on every finalized bit vector (any well-formed word array whose
`init` succeeded), `selects k` with `k ≥ 1` returns the 0-indexed position of
the `k`-th set bit, and `-1` when fewer than `k` bits are set; in particular
on the vector with bits set exactly at 4, 5, 127, 128 it returns
4, 5, 127, 128 and then `-1`. -/
theorem sutrie_C3 :
    (∀ (b b' : bitset), (∀ w ∈ b.bits, w < 2 ^ 64) → b.init = some b' →
      ∀ k : Nat, 1 ≤ k →
        b'.selects (k : Int) =
          some (match (onesPositions b'.bits).get? (k - 1) with
                | none => (-1 : Int)
                | some p => (p : Int))) ∧
      tbVec.init.map
        (fun fin => [fin.selects 1, fin.selects 2, fin.selects 3, fin.selects 4,
          fin.selects 5]) =
        some [some 4, some 5, some 127, some 128, some (-1)] :=
  ⟨fun b b' hwf hinit k hk => selects_spec b b' hwf hinit k hk, by decide⟩

/-- Witness for C3's general part at the concrete vector `tbVec` and `k = 3`. -/
theorem sutrie_C3_witness :
    (tbVec.init.getD default).selects ((3 : Nat) : Int) =
      some (match (onesPositions (tbVec.init.getD default).bits).get? (3 - 1) with
            | none => (-1 : Int)
            | some p => (p : Int)) := by
  have hwf : ∀ w ∈ tbVec.bits, w < 2 ^ 64 := by decide
  have hinit : tbVec.init = some (tbVec.init.getD default) := by decide
  exact sutrie_C3.1 tbVec (tbVec.init.getD default) hwf hinit 3 (by decide)

/-- The live contents of the ring-buffer queue, front to back. -/
def queueList (q : queue) : List bfsNode :=
  (List.range q.sz).map (fun i => q.data.getD ((q.l + i) % q.data.length) default)

/-- Distinct offsets below the capacity land in distinct slots. -/
theorem slot_ne (l i s len : Nat) (hlen : 0 < len) (hi : i < s) (hs : s < len) :
    (l + i) % len ≠ (l + s) % len := by
  intro heq
  have hmod : (l + i) ≡ (l + s) [MOD len] := heq
  have hdvd : len ∣ (l + s) - (l + i) := (Nat.modEq_iff_dvd' (by omega)).mp hmod
  have : (l + s) - (l + i) = s - i := by omega
  rw [this] at hdvd
  have := Nat.le_of_dvd (by omega) hdvd
  omega

/-- Pushing onto a non-full queue appends to the live contents. -/
theorem push_list (q : queue) (e : bfsNode) (hsz : q.sz < q.data.length) :
    queueList (q.push e) = queueList q ++ [e] ∧
      (q.push e).sz = q.sz + 1 ∧ (q.push e).data.length = q.data.length ∧
      (q.push e).l = q.l := by
  have hlen : 0 < q.data.length := by omega
  refine ⟨?_, rfl, by simp [queue.push], rfl⟩
  unfold queueList queue.push
  simp only [List.length_set]
  rw [List.range_succ, List.map_append]
  congr 1
  · apply List.map_congr_left
    intro i hi
    rw [List.mem_range] at hi
    have hne : (q.l + i) % q.data.length ≠ (q.l + q.sz) % q.data.length :=
      slot_ne q.l i q.sz q.data.length hlen hi hsz
    rw [List.getD_eq_get?, List.getD_eq_get?,
      @List.get?_set_ne _ e ((q.l + q.sz) % q.data.length)
        ((q.l + i) % q.data.length) q.data (Ne.symm hne)]
  · have hlt : (q.l + q.sz) % q.data.length < q.data.length := Nat.mod_lt _ hlen
    simp only [List.map_cons, List.map_nil]
    rw [List.getD_eq_get?, List.get?_set_eq]
    obtain ⟨v, hv⟩ : ∃ v, q.data.get? ((q.l + q.sz) % q.data.length) = some v := by
      cases hg : q.data.get? ((q.l + q.sz) % q.data.length) with
      | none => rw [List.get?_eq_none] at hg; omega
      | some v => exact ⟨v, rfl⟩
    rw [hv]
    rfl

/-- Popping from a nonempty queue removes the front of the live contents. -/
theorem pop_list (q : queue) (hsz : 0 < q.sz) (hl : q.l < q.data.length) :
    queueList q = q.pop.1 :: queueList q.pop.2 ∧
      q.pop.2.sz = q.sz - 1 ∧ q.pop.2.data.length = q.data.length ∧
      q.pop.2.l < q.data.length := by
  have hlen : 0 < q.data.length := by omega
  refine ⟨?_, rfl, rfl, Nat.mod_lt _ hlen⟩
  unfold queueList queue.pop
  simp only
  obtain ⟨m, hm⟩ : ∃ m, q.sz = m + 1 := ⟨q.sz - 1, by omega⟩
  rw [hm]
  rw [List.range_succ_eq_map, List.map_cons]
  simp only [Nat.add_zero, Nat.add_sub_cancel]
  congr 1
  · rw [Nat.mod_eq_of_lt hl]
  · rw [List.map_map]
    apply List.map_congr_left
    intro i hi
    simp only [Function.comp]
    congr 1
    rw [Nat.mod_add_mod, Nat.succ_eq_add_one]
    congr 1
    omega

/-- Unconditional form of `getBit` (out-of-range words read as zero). -/
theorem getBit_eq (b : bitset) (x : Nat) :
    b.getBit x = (b.bits.getD (x / 64) 0).testBit (x % 64) := by
  unfold bitset.getBit
  by_cases h : b.bits.length ≤ x / 64
  · rw [if_pos h]
    have h0 : b.bits.getD (x / 64) 0 = 0 := by
      rw [List.getD_eq_get?, List.get?_eq_none.mpr h]
      rfl
    rw [h0, Nat.zero_testBit]
  · rw [if_neg h]

/-- Growing the word array does not change reads (new words are zero). -/
theorem growWords_getD (l : List Nat) (wi m : Nat) :
    (growWords l wi).getD m 0 = l.getD m 0 := by
  unfold growWords
  rw [List.getD_eq_get?, List.getD_eq_get?]
  by_cases h : m < l.length
  · rw [List.get?_append h]
  · rw [List.get?_append_right (by omega)]
    rw [List.get?_eq_none.mpr (by omega : l.length ≤ m)]
    cases hg : (List.replicate (wi + 1 - l.length) (0 : Nat)).get? (m - l.length) with
    | none => rfl
    | some v =>
      have hv0 : v = 0 := List.eq_of_mem_replicate (List.get?_mem hg)
      rw [hv0]
      rfl

/-- Reading any bit after `setBit _ true`. -/
theorem getBit_setBit_true (b : bitset) (p x : Nat) :
    ((b.setBit p true).getBit x = true) ↔ (x = p ∨ b.getBit x = true) := by
  rw [getBit_eq, getBit_eq]
  unfold bitset.setBit
  simp only [if_pos rfl, if_true]
  have hplt : p / 64 < (growWords b.bits (p / 64)).length := by
    unfold growWords
    rw [List.length_append, List.length_replicate]
    omega
  by_cases hw : x / 64 = p / 64
  · rw [hw]
    have hgd : (((growWords b.bits (p / 64)).set (p / 64)
        ((growWords b.bits (p / 64)).getD (p / 64) 0 ||| 1 <<< (p % 64))).getD (p / 64) 0) =
        b.bits.getD (p / 64) 0 ||| 1 <<< (p % 64) := by
      obtain ⟨v, hv⟩ : ∃ v, (growWords b.bits (p / 64)).get? (p / 64) = some v := by
        cases hg : (growWords b.bits (p / 64)).get? (p / 64) with
        | none => rw [List.get?_eq_none] at hg; omega
        | some v => exact ⟨v, rfl⟩
      rw [List.getD_eq_get?, List.get?_set_eq, hv]
      show (growWords b.bits (p / 64)).getD (p / 64) 0 ||| 1 <<< (p % 64) =
        b.bits.getD (p / 64) 0 ||| 1 <<< (p % 64)
      rw [growWords_getD]
    rw [hgd]
    rw [show (1 <<< (p % 64) : Nat) = 2 ^ (p % 64) by rw [Nat.shiftLeft_eq, Nat.one_mul]]
    rw [Nat.testBit_lor, Nat.testBit_two_pow, Bool.or_eq_true, decide_eq_true_eq]
    constructor
    · rintro (h1 | h2)
      · right; exact h1
      · left; omega
    · rintro (h1 | h2)
      · right; omega
      · left; exact h2
  · have hgd : (((growWords b.bits (p / 64)).set (p / 64)
        ((growWords b.bits (p / 64)).getD (p / 64) 0 ||| 1 <<< (p % 64))).getD (x / 64) 0) =
        b.bits.getD (x / 64) 0 := by
      rw [List.getD_eq_get?,
        @List.get?_set_ne _ _ (p / 64) (x / 64) (growWords b.bits (p / 64)) (Ne.symm hw),
        ← List.getD_eq_get?, growWords_getD]
    rw [hgd]
    constructor
    · intro h
      exact Or.inr h
    · rintro (h1 | h2)
      · exfalso
        subst h1
        exact hw rfl
      · exact h2

/-- `setBit _ true` preserves word well-formedness. -/
theorem setBit_true_wf (b : bitset) (p : Nat) (hwf : ∀ w ∈ b.bits, w < 2 ^ 64) :
    ∀ w ∈ (b.setBit p true).bits, w < 2 ^ 64 := by
  intro w hw
  unfold bitset.setBit at hw
  simp only [if_pos rfl, if_true] at hw
  have hgw : ∀ w ∈ growWords b.bits (p / 64), w < 2 ^ 64 := by
    intro w hw
    unfold growWords at hw
    rcases List.mem_append.mp hw with h | h
    · exact hwf w h
    · rw [List.eq_of_mem_replicate h]
      norm_num
  rcases List.mem_or_eq_of_mem_set hw with h | h
  · exact hgw w h
  · subst h
    apply Nat.or_lt_two_pow
    · rw [List.getD_eq_get?]
      cases hg : (growWords b.bits (p / 64)).get? (p / 64) with
      | none => norm_num
      | some v => exact hgw v (List.get?_mem hg)
    · rw [show (1 <<< (p % 64) : Nat) = 2 ^ (p % 64) by rw [Nat.shiftLeft_eq, Nat.one_mul]]
      exact Nat.pow_lt_pow_right (by norm_num) (by omega)
